import Mathlib

/-! KD-tree point set (`kdtree::PointSet`)

A shallow embedding of `src/src/point.cpp`, `src/src/rect.cpp` and
`src/src/2dtree.cpp`, followed by theorems about it.

Modelling conventions.

* A coordinate is a rational number.  The tree code copies and compares
  coordinates, which is exact in binary64, so the tree is the same whether a
  `double` is read as a rational or as a binary64 value.
  `std::numeric_limits<double>::epsilon()` is `2⁻⁵²`.
* `Point::distance` and `Rect::distance` do arithmetic, and are embedded
  twice.  `Point.distance64`, `Rect.distance64` and the search
  `nearest_impl64` built on them round every operation to binary64 as
  IEEE 754 prescribes (round to nearest, ties to even, gradual underflow, a
  correctly rounded `std::sqrt`); a result that overflows to an infinity is
  `none`.  `Point.distance`, `Rect.distance` and `nearest_impl` are the
  idealisation without rounding, and carry the *squared* distance.
* The k-nearest search uses the computed distance only as a sort key;
  `nearest_impl_k_with` takes the function that computes it as a parameter.
* The tree owns its nodes; a `std::shared_ptr<Node>` into the tree is the
  access path of the node, stored leaf-first: the head of the list is the
  last step taken (`false` for `left`, `true` for `right`), the tail is the
  parent pointer, and `[]` is the root.  A node that is mutated in place keeps
  its path.  `nullptr` is `none`.
* An operation that would dereference `nullptr` or a dangling path yields
  `none`.
* `std::push_heap` and `std::pop_heap` are library algorithms whose result is
  fixed only up to the heap property; the embedding keeps the heap vector in
  descending order, which has that property.
-/

namespace kdtree

/-! ## Binary64 arithmetic -/

/-- The power `2 ^ e` for an integer exponent. -/
def pow2 (e : ℤ) : ℚ :=
  if 0 ≤ e then ((2 ^ e.toNat : ℕ) : ℚ) else 1 / ((2 ^ (-e).toNat : ℕ) : ℚ)

/-- Binary search for the largest exponent `e` below `acc + 2 ^ bits` with
`2 ^ e ≤ n`, given `2 ^ acc ≤ n`. -/
def log2_search : ℕ → ℕ → ℕ → ℕ
  | 0, acc, _ => acc
  | b + 1, acc, n =>
    if 2 ^ (acc + 2 ^ b) ≤ n then log2_search b (acc + 2 ^ b) n else log2_search b acc n

/-- The exponent `⌊log₂ n⌋` of a positive natural number, found by binary
search when `n < 2 ^ 65536`. -/
def nat_log2 (n : ℕ) : ℕ := if n < 2 ^ 65536 then log2_search 16 0 n else Nat.log2 n

/-- The exponent `⌊log₂ x⌋` of a positive rational. -/
def ilog2 (x : ℚ) : ℤ :=
  let e0 : ℤ := (nat_log2 x.num.natAbs : ℤ) - (nat_log2 x.den : ℤ)
  if pow2 e0 ≤ x then e0 else e0 - 1

/-- Round a non-negative rational to the nearest natural number, a tie to the
even one. -/
def round_even (x : ℚ) : ℕ :=
  let n := x.num.natAbs / x.den
  let r := x - n
  if r < 1 / 2 then n else if 1 / 2 < r then n + 1 else if n % 2 = 0 then n else n + 1

/-- Rounding of an exact result to binary64, round-to-nearest-even with
gradual underflow; `none` when the result overflows to an infinity. -/
def fl (x : ℚ) : Option ℚ :=
  if x = 0 then some 0
  else
    let e := max (ilog2 |x|) (-1022)
    let ulp := pow2 (e - 52)
    let r := (round_even (|x| / ulp) : ℚ) * ulp
    if pow2 1024 ≤ r then none else some (if x < 0 then -r else r)

/-- Bitwise integer square root: `bits` candidate bits below the accumulated
value `acc`. -/
def isqrt_aux : ℕ → ℕ → ℕ → ℕ
  | 0, acc, _ => acc
  | b + 1, acc, n =>
    if (acc + 2 ^ b) * (acc + 2 ^ b) ≤ n then isqrt_aux b (acc + 2 ^ b) n else isqrt_aux b acc n

/-- The integer square root `⌊√n⌋`. -/
def isqrt (n : ℕ) : ℕ := isqrt_aux (nat_log2 n / 2 + 1) 0 n

/-- Library call `std::sqrt` on a non-negative finite binary64 value: the
correctly rounded square root. -/
def fl_sqrt (x : ℚ) : ℚ :=
  if x ≤ 0 then 0
  else
    let es := ilog2 x / 2
    let ulp := pow2 (es - 52)
    let t := x / (ulp * ulp)
    let n := isqrt (t.num.natAbs / t.den)
    let m : ℚ := ((2 * n + 1) * (2 * n + 1) : ℕ) / 4
    let n1 := if t < m then n else if m < t then n + 1 else if n % 2 = 0 then n else n + 1
    (n1 : ℚ) * ulp

/-! ## point.cpp -/

/-- Machine epsilon of `double`. -/
def epsilon : ℚ := 1 / 2 ^ 52

/-- Tolerant comparison `std::fabs(x - y) < epsilon`. -/
def is_equal (x y : ℚ) : Bool := decide (|x - y| < epsilon)

/-- Two coordinates. -/
structure Point where
  x : ℚ
  y : ℚ
deriving DecidableEq, Repr

namespace Point

/-- Method `Point::distance` without rounding: the exact squared value. -/
def distance (p other : Point) : ℚ :=
  let x_dif := p.x - other.x
  let y_dif := p.y - other.y
  x_dif * x_dif + y_dif * y_dif

/-- Method `Point::distance` in binary64: the two differences, the two
products, the sum and the square root are rounded one after the other. -/
def distance64 (p other : Point) : Option ℚ := do
  let x_dif ← fl (p.x - other.x)
  let y_dif ← fl (p.y - other.y)
  let xx ← fl (x_dif * x_dif)
  let yy ← fl (y_dif * y_dif)
  let sum ← fl (xx + yy)
  pure (fl_sqrt sum)

/-- Comparison `Point::operator<`. -/
def lt (p other : Point) : Bool :=
  if is_equal p.y other.y then decide (p.x < other.x) else decide (p.y < other.y)

/-- Comparison `Point::operator>`. -/
def gt (p other : Point) : Bool :=
  if is_equal p.y other.y then decide (p.x > other.x) else decide (p.y > other.y)

/-- Comparison `Point::operator<=`. -/
def le (p other : Point) : Bool := !p.gt other

/-- Comparison `Point::operator>=`. -/
def ge (p other : Point) : Bool := !p.lt other

/-- Comparison `Point::operator==`. -/
def eq (p other : Point) : Bool := is_equal p.y other.y && is_equal p.x other.x

/-- Comparison `Point::operator!=`. -/
def ne (p other : Point) : Bool := !p.eq other

end Point

/-! ## rect.cpp -/

/-- Axis-aligned rectangle given by two corners. -/
structure Rect where
  bottom_left : Point
  top_right : Point
deriving DecidableEq, Repr

namespace Rect

def get_bottom_left (r : Rect) : Point := r.bottom_left

def get_top_right (r : Rect) : Point := r.top_right

def xmin (r : Rect) : ℚ := r.bottom_left.x

def ymin (r : Rect) : ℚ := r.bottom_left.y

def xmax (r : Rect) : ℚ := r.top_right.x

def ymax (r : Rect) : ℚ := r.top_right.y

/-- Overload `Rect::contains(const Point &)`. -/
def contains (r : Rect) (p : Point) : Bool :=
  decide (r.xmin ≤ p.x) && decide (p.x ≤ r.xmax) && decide (r.ymin ≤ p.y) && decide (p.y ≤ r.ymax)

/-- Overload `Rect::contains(const Rect &)`. -/
def containsRect (r rect : Rect) : Bool :=
  decide (r.xmin ≤ rect.xmin) && decide (rect.xmax ≤ r.xmax) &&
    decide (r.ymin ≤ rect.ymin) && decide (rect.ymax ≤ r.ymax)

/-- Method `Rect::distance` without rounding, squared; the three
one-dimensional returns (`p.y - ymax`, `ymin - p.y`, `xmin - p.x` or
`p.x - xmax`) are positive in their branches and are squared as well. -/
def distance (r : Rect) (p : Point) : ℚ :=
  if r.contains p then 0
  else if p.y > r.ymax then
    if p.x < r.xmin then p.distance ⟨r.xmin, r.ymax⟩
    else if p.x > r.xmax then p.distance ⟨r.xmax, r.ymax⟩
    else (p.y - r.ymax) * (p.y - r.ymax)
  else if p.y < r.ymin then
    if p.x < r.xmin then p.distance ⟨r.xmin, r.ymin⟩
    else if p.x > r.xmax then p.distance ⟨r.xmax, r.ymin⟩
    else (r.ymin - p.y) * (r.ymin - p.y)
  else if p.x < r.xmin then (r.xmin - p.x) * (r.xmin - p.x)
  else (p.x - r.xmax) * (p.x - r.xmax)

/-- Method `Rect::distance` in binary64: `0` inside, `Point::distance` to a
corner in the four corner cases, a rounded coordinate difference otherwise. -/
def distance64 (r : Rect) (p : Point) : Option ℚ :=
  if r.contains p then some 0
  else if p.y > r.ymax then
    if p.x < r.xmin then p.distance64 ⟨r.xmin, r.ymax⟩
    else if p.x > r.xmax then p.distance64 ⟨r.xmax, r.ymax⟩
    else fl (p.y - r.ymax)
  else if p.y < r.ymin then
    if p.x < r.xmin then p.distance64 ⟨r.xmin, r.ymin⟩
    else if p.x > r.xmax then p.distance64 ⟨r.xmax, r.ymin⟩
    else fl (r.ymin - p.y)
  else if p.x < r.xmin then fl (r.xmin - p.x)
  else fl (p.x - r.xmax)

/-- Test `Rect::intersects`. -/
def intersects (r other : Rect) : Bool :=
  let other_left_between_this := decide (r.xmin ≤ other.xmin) && decide (other.xmin ≤ r.xmax)
  let other_right_between_this := decide (r.xmin ≤ other.xmax) && decide (other.xmax ≤ r.xmax)
  let other_top_between_this := decide (r.ymin ≤ other.ymax) && decide (other.ymax ≤ r.ymax)
  let other_bottom_between_this := decide (r.ymin ≤ other.ymin) && decide (other.ymin ≤ r.ymax)
  let upper_left := other_left_between_this && other_top_between_this
  let upper_right := other_right_between_this && other_top_between_this
  let lower_left := other_left_between_this && other_bottom_between_this
  let lower_right := other_right_between_this && other_bottom_between_this
  let cur_is_mid_left :=
    other_right_between_this && decide (other.ymin ≤ r.ymin) && decide (r.ymax ≤ other.ymax)
  let cur_is_mid_right :=
    other_left_between_this && decide (other.ymin ≤ r.ymin) && decide (r.ymax ≤ other.ymax)
  r.containsRect other || other.containsRect r || upper_left || upper_right || lower_left ||
    lower_right || cur_is_mid_left || cur_is_mid_right

end Rect

/-! ## 2dtree.cpp: nodes and pointers -/

/-- A `PointSet::Node`.  Every node the source constructs has either both
child links null (`leaf`) or both set (`inner`); the `parent` link is the tail
of the node's access path. -/
inductive Node where
  | leaf (data : Point) (region : Rect)
  | inner (data : Point) (region : Rect) (left right : Node)
deriving DecidableEq, Repr

/-- A non-null `std::shared_ptr<Node>` into the tree: the access path of the
node, last step first. -/
abbrev NodePtr := List Bool

namespace Node

/-- Field `data`. -/
def data : Node → Point
  | leaf d _ => d
  | inner d _ _ _ => d

/-- Field `region`. -/
def region : Node → Rect
  | leaf _ r => r
  | inner _ r _ _ => r

/-- Follow child links from a node, first step first. -/
def get : Node → List Bool → Option Node
  | n, [] => some n
  | leaf _ _, _ :: _ => none
  | inner _ _ l _, false :: p => l.get p
  | inner _ _ _ r, true :: p => r.get p

/-- Overwrite the node found by following child links, first step first. -/
def set : Node → List Bool → Node → Option Node
  | _, [], n => some n
  | leaf _ _, _ :: _, _ => none
  | inner d reg l r, false :: p, n => (l.set p n).map fun l' => inner d reg l' r
  | inner d reg l r, true :: p, n => (r.set p n).map fun r' => inner d reg l r'

/-- Dereference a pointer into the tree rooted at `root`. -/
def deref (root : Node) (ptr : NodePtr) : Option Node := root.get ptr.reverse

/-- Store a node through a pointer into the tree rooted at `root`. -/
def assign (root : Node) (ptr : NodePtr) (n : Node) : Option Node := root.set ptr.reverse n

/-- Load `ptr->left` (`some none` is a null link). -/
def left_ptr (root : Node) (ptr : NodePtr) : Option (Option NodePtr) :=
  match root.deref ptr with
  | none => none
  | some (leaf _ _) => some none
  | some (inner _ _ _ _) => some (some (false :: ptr))

/-- Load `ptr->right` (`some none` is a null link). -/
def right_ptr (root : Node) (ptr : NodePtr) : Option (Option NodePtr) :=
  match root.deref ptr with
  | none => none
  | some (leaf _ _) => some none
  | some (inner _ _ _ _) => some (some (true :: ptr))

/-- The points held by the leaves, left to right. -/
def leaves : Node → List Point
  | leaf d _ => [d]
  | inner _ _ l r => l.leaves ++ r.leaves

end Node

/-- The `PointSet` class: cached first and last leaf, root and size.  The
counter `m_size` grows by one per allocated leaf pair and cannot reach the
range of `std::size_t`, so it is a natural number. -/
structure PointSet where
  begin_pointer : Option NodePtr
  end_pointer : Option NodePtr
  root : Option Node
  m_size : Nat
deriving DecidableEq, Repr

/-- Helper `PointSet::update_top_right`. -/
def update_top_right (left_son right_son : Node) : Point :=
  ⟨max left_son.region.get_top_right.x right_son.region.get_top_right.x,
   max left_son.region.get_top_right.y right_son.region.get_top_right.y⟩

/-- Helper `PointSet::update_bottom_left`. -/
def update_bottom_left (left_son right_son : Node) : Point :=
  ⟨min left_son.region.get_bottom_left.x right_son.region.get_bottom_left.x,
   min left_son.region.get_bottom_left.y right_son.region.get_bottom_left.y⟩

/-- Loop `while (cur->left != nullptr) cur = cur->left`, started at node `n`
whose pointer is `ptr`. -/
def descend_left : Node → NodePtr → NodePtr
  | Node.leaf _ _, ptr => ptr
  | Node.inner _ _ l _, ptr => descend_left l (false :: ptr)

/-- Loop `while (cur->right != nullptr) cur = cur->right`, started at node `n`
whose pointer is `ptr`. -/
def descend_right : Node → NodePtr → NodePtr
  | Node.leaf _ _, ptr => ptr
  | Node.inner _ _ _ r, ptr => descend_right r (true :: ptr)

/-- Descent `PointSet::find`, started at node `cur` whose pointer is `ptr`:
the pointer to the leaf reached and the depth parity there. -/
def find : Node → NodePtr → Point → Bool → NodePtr × Bool
  | Node.leaf _ _, ptr, _, depth => (ptr, depth)
  | Node.inner data _ left right, ptr, to_find, depth =>
    if depth then
      if data.x < to_find.x then find right (true :: ptr) to_find (!depth)
      else find left (false :: ptr) to_find (!depth)
    else
      if data.y < to_find.y then find right (true :: ptr) to_find (!depth)
      else find left (false :: ptr) to_find (!depth)

/-- One activation of `PointSet::restore` without the recursive call:
recompute `cur->region` from the two children. -/
def restore_step (root : Node) (cur : NodePtr) : Option Node :=
  match root.deref cur with
  | some (Node.inner d _ l r) =>
    root.assign cur (Node.inner d ⟨update_bottom_left l r, update_top_right l r⟩ l r)
  | _ => none

/-- Recursion `PointSet::restore`: recompute the region of `cur`, then of its
parent, up to the root. -/
def restore : Node → NodePtr → Option Node
  | root, [] => restore_step root []
  | root, d :: parent => (restore_step root (d :: parent)).bind fun root' => restore root' parent

namespace PointSet

/-- A default-constructed `PointSet`. -/
def empty_set : PointSet := ⟨none, none, none, 0⟩

/-- Query `PointSet::empty`. -/
def empty (s : PointSet) : Bool := s.m_size == 0

/-- Query `PointSet::size`. -/
def size (s : PointSet) : Nat := s.m_size

/-- Refresh `PointSet::update` of the cached first and last leaf. -/
def update (s : PointSet) : Option PointSet :=
  if s.empty then some s
  else
    let s1 : PointSet :=
      match s.begin_pointer with
      | none => { s with begin_pointer := s.root.map fun _ => [],
                         end_pointer := s.root.map fun _ => [] }
      | some _ => s
    match s1.root, s1.begin_pointer, s1.end_pointer with
    | some root, some b, some e =>
      match root.deref b, root.deref e with
      | some bn, some en =>
        some { s1 with begin_pointer := some (descend_left bn b),
                       end_pointer := some (descend_right en e) }
      | _, _ => none
    | _, _, _ => none

/-- Mutator `PointSet::put`. -/
def put (s : PointSet) (point : Point) : Option PointSet :=
  match s.root with
  | none =>
    update { s with root := some (Node.leaf point ⟨point, point⟩), m_size := s.m_size + 1 }
  | some root =>
    let result := find root [] point true
    let cur := result.1
    match root.deref cur with
    | none => none
    | some curNode =>
      if curNode.data.eq point then some s
      else
        let depth := result.2
        let left := Node.leaf curNode.data curNode.region
        let right := Node.leaf point ⟨point, point⟩
        -- `std::swap(left, right)` under the test on the active coordinate; the
        -- assignment `cur->data = point` in that branch is overwritten just below
        let swap : Bool :=
          (depth && decide (curNode.data.x > point.x)) ||
            (!depth && decide (curNode.data.y > point.y))
        let left1 := if swap then right else left
        let right1 := if swap then left else right
        -- `cur->data = left->data; cur->left = left; cur->right = right;` on the node
        -- `cur`, whose region stays as it was until `restore`
        match root.assign cur (Node.inner left1.data curNode.region left1 right1) with
        | none => none
        | some root1 =>
          match restore root1 cur with
          | none => none
          | some root2 => update { s with root := some root2, m_size := s.m_size + 1 }

/-- Run `put` for each point of a list in turn, starting from `s`. -/
def putList (s : PointSet) : List Point → Option PointSet
  | [] => some s
  | p :: ps => (s.put p).bind fun s' => putList s' ps

/-- A sequence of `put` calls on a default-constructed set. -/
def putAll (ps : List Point) : Option PointSet := putList empty_set ps

/-- Query `PointSet::contains`. -/
def contains (s : PointSet) (point : Point) : Option Bool :=
  match s.root with
  | none => none
  | some root =>
    match root.deref (find root [] point true).1 with
    | none => none
    | some result => some (point.eq result.data)

end PointSet

/-- First loop of `PointSet::next`:
`while (cur != root && prev != cur->left) { prev = cur; cur = cur->parent; }`.
The third argument is `cur`; the result is the final `cur`. -/
def next_climb (root : Node) : NodePtr → NodePtr → Option NodePtr
  | _, [] => some []
  | prev, d :: parent =>
    match root.left_ptr (d :: parent) with
    | none => none
    | some l => if some prev ≠ l then next_climb root (d :: parent) parent else some (d :: parent)

/-- Second loop of `PointSet::next`:
`while (cur != root && cur->right == nullptr) cur = cur->parent;`. -/
def next_skip (root : Node) : NodePtr → Option NodePtr
  | [] => some []
  | d :: parent =>
    match root.right_ptr (d :: parent) with
    | none => none
    | some none => next_skip root parent
    | some (some _) => some (d :: parent)

namespace PointSet

/-- Successor `PointSet::next`; `some none` is the returned `nullptr`. -/
def next (s : PointSet) (cur : NodePtr) : Option (Option NodePtr) :=
  if some cur = s.end_pointer then some none
  else
    match s.root, cur with
    | none, _ => none
    | some _, [] => none
    | some root, d :: parent =>
      match next_climb root (d :: parent) parent with
      | none => none
      | some cur1 =>
        match next_skip root cur1 with
        | none => none
        | some cur2 =>
          match root.right_ptr cur2 with
          | some (some cur3) =>
            match root.deref cur3 with
            | none => none
            | some n => some (some (descend_left n cur3))
          | _ => none

/-- The loop `for (iter = begin(); iter != end(); iter++)` reading `*iter`,
from the iterator position `cur`, with a bound on the number of steps. -/
def iterate (s : PointSet) : Nat → Option NodePtr → Option (List Point)
  | _, none => some []
  | 0, some _ => none
  | fuel + 1, some cur =>
    match s.root with
    | none => none
    | some root =>
      match root.deref cur, s.next cur with
      | some n, some nx => (iterate s fuel nx).map fun rest => n.data :: rest
      | _, _ => none

end PointSet

/-- Collector `PointSet::report_subtree`; the result vector is threaded. -/
def report_subtree : Node → List Point → List Point
  | Node.leaf data _, result => result ++ [data]
  | Node.inner _ _ left right, result => report_subtree right (report_subtree left result)

/-- Search `PointSet::search_range`, with the two calls of
`search_range_child` unfolded so that the recursion is on the children. -/
def search_range : Node → Rect → List Point → List Point
  | Node.leaf data _, rect, result => if rect.contains data then result ++ [data] else result
  | Node.inner _ _ left right, rect, result =>
    let result1 :=
      if rect.containsRect left.region then report_subtree left result
      else if rect.intersects left.region then search_range left rect result
      else result
    if rect.containsRect right.region then report_subtree right result1
    else if rect.intersects right.region then search_range right rect result1
    else result1

/-- Helper `PointSet::search_range_child`. -/
def search_range_child (child : Node) (rect : Rect) (result : List Point) : List Point :=
  if rect.containsRect child.region then report_subtree child result
  else if rect.intersects child.region then search_range child rect result
  else result

/-- Single-result `PointSet::nearest_impl` without rounding; `min` is a
squared distance. -/
def nearest_impl : Node → Point → ℚ → Point
  | Node.leaf data _, _, _ => data
  | Node.inner data _ left right, point, min0 =>
    let min1 := min min0 (data.distance point)
    let l := if left.region.distance point ≤ min1 then nearest_impl left point min1 else data
    let r := if right.region.distance point ≤ min1 then nearest_impl right point min1 else data
    if point.distance l < point.distance r then l else r

/-- Single-result `PointSet::nearest_impl` in binary64. -/
def nearest_impl64 : Node → Point → ℚ → Option Point
  | Node.leaf data _, point, _ => do
    let _ ← data.distance64 point
    pure data
  | Node.inner data _ left right, point, min0 => do
    let min1 := min min0 (← data.distance64 point)
    let left_region ← left.region.distance64 point
    let l ← if left_region ≤ min1 then nearest_impl64 left point min1 else pure data
    let right_region ← right.region.distance64 point
    let r ← if right_region ≤ min1 then nearest_impl64 right point min1 else pure data
    let left_dist ← point.distance64 l
    let right_dist ← point.distance64 r
    pure (if left_dist < right_dist then l else r)

/-- Comparison `operator<` of `std::pair<double, Point>`; `α` is the type of
the computed distances. -/
def pair_lt {α : Type} [LinearOrder α] (a b : α × Point) : Bool :=
  decide (a.1 < b.1) || (!decide (b.1 < a.1) && a.2.lt b.2)

/-- Place `x` in a vector kept in descending order. -/
def heap_insert {α : Type} [LinearOrder α] (x : α × Point) : List (α × Point) → List (α × Point)
  | [] => [x]
  | y :: ys => if pair_lt y x then x :: y :: ys else y :: heap_insert x ys

/-- Library call `std::push_heap(begin, end)`: the last element joins the heap
formed by the others.  The standard fixes the result only up to the heap
property; the embedding keeps the vector in descending order, an arrangement
in which every parent is not less than its children. -/
def push_heap {α : Type} [LinearOrder α] (v : List (α × Point)) : List (α × Point) :=
  match v.getLast? with
  | none => []
  | some x => heap_insert x v.dropLast

/-- Library call `std::pop_heap(begin, end)`: the first element moves to the
back and the others form a heap; a descending vector stays descending. -/
def pop_heap {α : Type} : List (α × Point) → List (α × Point)
  | [] => []
  | x :: xs => xs ++ [x]

/-- Multi-result `PointSet::nearest_impl` without rounding (the key of a pair
is the exact squared distance); the heap vector is threaded. -/
def nearest_impl_k : Node → Point → Nat → List (ℚ × Point) → List (ℚ × Point)
  | Node.leaf data _, point, k, heap =>
    let heap1 := push_heap (heap ++ [(point.distance data, data)])
    if heap1.length > k then (pop_heap heap1).dropLast else heap1
  | Node.inner _ _ left right, point, k, heap =>
    nearest_impl_k right point k (nearest_impl_k left point k heap)

/-- Multi-result `PointSet::nearest_impl` with the computation of
`point.distance(cur->data)` as the parameter `dist`; the heap vector is
threaded. -/
def nearest_impl_k_with {α : Type} [LinearOrder α] (dist : Point → Point → α) :
    Node → Point → Nat → List (α × Point) → List (α × Point)
  | Node.leaf data _, point, k, heap =>
    let heap1 := push_heap (heap ++ [(dist point data, data)])
    if heap1.length > k then (pop_heap heap1).dropLast else heap1
  | Node.inner _ _ left right, point, k, heap =>
    nearest_impl_k_with dist right point k (nearest_impl_k_with dist left point k heap)

namespace PointSet

/-- Query `PointSet::range`: the materialised result vector. -/
def range (s : PointSet) (rect : Rect) : Option (List Point) :=
  match s.root with
  | none => none
  | some root => some (search_range root rect [])

/-- Query `PointSet::nearest(const Point &)`; the outer result is total, the
`Option` is `std::optional`. -/
def nearest (s : PointSet) (point : Point) : Option Point :=
  match s.root with
  | none => none
  | some root => some (nearest_impl root point (point.distance root.data))

/-- Query `PointSet::nearest(const Point &)` in binary64; the outer `Option`
is `none` on overflow, the inner one is `std::optional`. -/
def nearest64 (s : PointSet) (point : Point) : Option (Option Point) :=
  match s.root with
  | none => some none
  | some root => do
    let min0 ← point.distance64 root.data
    let r ← nearest_impl64 root point min0
    pure (some r)

/-- Query `PointSet::nearest(const Point &, std::size_t)`: the heap vector
behind the returned iterators, and the points they yield. -/
def nearest_heap (s : PointSet) (p : Point) (k : Nat) : Option (List (ℚ × Point)) :=
  match s.root with
  | none => none
  | some root => some (nearest_impl_k root p k [])

/-- The points yielded by iterating the result of `nearest(p, k)`. -/
def nearest_k (s : PointSet) (p : Point) (k : Nat) : Option (List Point) :=
  (s.nearest_heap p k).map fun heap => heap.map Prod.snd

/-- Query `PointSet::nearest(const Point &, std::size_t)` with the computation
of `Point::distance` as the parameter `dist`: the points yielded by iterating
the result; `none` when the root is `nullptr`. -/
def nearest_k_with {α : Type} [LinearOrder α] (dist : Point → Point → α) (s : PointSet)
    (p : Point) (k : Nat) : Option (List Point) :=
  match s.root with
  | none => none
  | some root => some ((nearest_impl_k_with dist root p k []).map Prod.snd)

end PointSet

/-! ## 2dtree.cpp: bulk construction -/

/-- Comparator selected in `build_tree`: `a.x() < b.x()` when `depth` holds,
`a.y() < b.y()` otherwise. -/
def lambda (depth : Bool) (a b : Point) : Bool :=
  if depth then decide (a.x < b.x) else decide (a.y < b.y)

/-- Library call `std::sort(start, finish, lambda)`.  The standard fixes the
result up to the order of elements that compare equivalent; the embedding
sorts stably by insertion. -/
def sort (depth : Bool) (slice : List Point) : List Point :=
  slice.insertionSort fun a b => lambda depth b a = false

/-- Library call `std::upper_bound(start, finish, value, lambda) - start`: on
a range partitioned with respect to `value`, as it is after `sort`, the index
of the first element that `value` is less than, or the length. -/
def upper_bound (depth : Bool) (slice : List Point) (value : Point) : Nat :=
  (slice.takeWhile fun a => !lambda depth value a).length

/-- The index `median` of `build_tree` on the sorted slice; `none` when the
middle element `*(start + (finish - start) / 2)` does not exist. -/
def median_index (depth : Bool) (sorted : List Point) : Option Nat :=
  match sorted[sorted.length / 2]? with
  | none => none
  | some mid => some (upper_bound depth sorted mid - 1)

/-- Builder `PointSet::build_tree` on the vector range `slice`, with a bound
on the recursion depth: the tree, and the range as the in-place sorts of this
call and of the recursive calls leave it. -/
def build_tree : Nat → List Point → Bool → Option (Node × List Point)
  | 0, _, _ => none
  | fuel + 1, slice, depth =>
    match slice with
    | [p] => some (Node.leaf p ⟨p, p⟩, [p])
    | _ =>
      let sorted := sort depth slice
      match median_index depth sorted with
      | none => none
      | some median =>
        match build_tree fuel (sorted.take median) (!depth) with
        | none => none
        | some (left_son, left_slice) =>
          match build_tree fuel (sorted.drop median) (!depth) with
          | none => none
          | some (right_son, right_slice) =>
            -- `*(start + median)` is read after both recursive calls
            match right_slice.head? with
            | none => none
            | some data =>
              some (Node.inner data
                ⟨update_bottom_left left_son right_son, update_top_right left_son right_son⟩
                left_son right_son, left_slice ++ right_slice)

/-- Loop of the library call `std::unique` after the element `last` was kept:
an element is dropped when `last == element`. -/
def unique_from (last : Point) : List Point → List Point
  | [] => []
  | y :: ys => if last.eq y then unique_from last ys else y :: unique_from y ys

/-- Library call `std::unique(begin, end)`: the range `[begin, new_end)`. -/
def unique : List Point → List Point
  | [] => []
  | x :: xs => x :: unique_from x xs

/-- Initialiser `PointSet::constructor_impl`.  The recursion bound handed to
`build_tree` is the length of the range, which every recursive call
shortens. -/
def PointSet.constructor_impl (s : PointSet) (input : List Point) : Option PointSet :=
  if input.isEmpty then some s
  else
    let new_input := unique input
    match build_tree new_input.length new_input true with
    | none => none
    | some (root, _) => PointSet.update { s with root := some root }

/-! ## Reference functions used in the proofs -/

/-- The coordinate compared at a depth parity: `x` when `depth` is true. -/
def coord (depth : Bool) (p : Point) : ℚ := if depth then p.x else p.y

/-- What `put` makes of the leaf it reaches, after `restore` has recomputed
the region of the new internal node. -/
def split_leaf (cur : Node) (point : Point) (depth : Bool) : Node :=
  let left := Node.leaf cur.data cur.region
  let right := Node.leaf point ⟨point, point⟩
  let swap : Bool :=
    (depth && decide (cur.data.x > point.x)) || (!depth && decide (cur.data.y > point.y))
  let left1 := if swap then right else left
  let right1 := if swap then left else right
  Node.inner left1.data ⟨update_bottom_left left1 right1, update_top_right left1 right1⟩
    left1 right1

/-- Recursive description of the tree after `put`: `none` when the leaf
reached holds a point equal to `point`, otherwise the tree with that leaf
split and the regions on the way back to the root recomputed. -/
def insert_rec (point : Point) : Node → Bool → Option Node
  | Node.leaf d reg, depth =>
    if d.eq point then none else some (split_leaf (Node.leaf d reg) point depth)
  | Node.inner d _ l r, depth =>
    if coord depth d < coord depth point then
      (insert_rec point r (!depth)).map fun r' =>
        Node.inner d ⟨update_bottom_left l r', update_top_right l r'⟩ l r'
    else
      (insert_rec point l (!depth)).map fun l' =>
        Node.inner d ⟨update_bottom_left l' r, update_top_right l' r⟩ l' r

/-! ## Invariants -/

/-- Region invariant: a leaf's region is the degenerate rectangle at its
point, and an internal node's region has the coordinate-wise minimum of the
children's bottom-left corners and the coordinate-wise maximum of their
top-right corners. -/
def RegionExact : Node → Prop
  | Node.leaf d reg => reg = ⟨d, d⟩
  | Node.inner _ reg l r =>
    reg.bottom_left = ⟨min l.region.bottom_left.x r.region.bottom_left.x,
                       min l.region.bottom_left.y r.region.bottom_left.y⟩ ∧
    reg.top_right = ⟨max l.region.top_right.x r.region.top_right.x,
                     max l.region.top_right.y r.region.top_right.y⟩ ∧
    RegionExact l ∧ RegionExact r

/-- Every internal node's representative point is held by a leaf below it. -/
def DataStored : Node → Prop
  | Node.leaf _ _ => True
  | Node.inner d _ l r => d ∈ l.leaves ++ r.leaves ∧ DataStored l ∧ DataStored r

/-- Routing invariant at depth parity `depth`: along the split coordinate the
leaves on the left are not above the representative point and the leaves on
the right are not below it. -/
def Routed : Bool → Node → Prop
  | _, Node.leaf _ _ => True
  | depth, Node.inner d _ l r =>
    (∀ a ∈ l.leaves, coord depth a ≤ coord depth d) ∧
    (∀ b ∈ r.leaves, coord depth d ≤ coord depth b) ∧
    Routed (!depth) l ∧ Routed (!depth) r

/-- Split-axis ordering at depth parity `depth`: at every internal node each
leaf of the left subtree has a split coordinate not above that of each leaf of
the right subtree. -/
def AxisOrdered : Bool → Node → Prop
  | _, Node.leaf _ _ => True
  | depth, Node.inner _ _ l r =>
    (∀ a ∈ l.leaves, ∀ b ∈ r.leaves, coord depth a ≤ coord depth b) ∧
    AxisOrdered (!depth) l ∧ AxisOrdered (!depth) r

/-- Consistency of the cached fields with the tree. -/
def PointSet.Consistent (s : PointSet) : Prop :=
  match s.root with
  | none => s = PointSet.empty_set
  | some root =>
    s.m_size = root.leaves.length ∧
    s.begin_pointer = some (descend_left root []) ∧
    s.end_pointer = some (descend_right root [])

/-- The points held by the leaves of the set, left to right. -/
def PointSet.leaves (s : PointSet) : List Point :=
  match s.root with
  | none => []
  | some root => root.leaves

/-- The tree invariants of a set. -/
def PointSet.TreeInv (s : PointSet) : Prop :=
  match s.root with
  | none => True
  | some root => RegionExact root ∧ DataStored root ∧ Routed true root

/-- What one leaf visit of the k-nearest search does to the heap vector:
the pair of the leaf joins the heap, and the first element leaves when the
heap exceeds `k`. -/
def visit_leaf {α : Type} [LinearOrder α] (dist : Point → Point → α) (q : Point) (k : Nat)
    (heap : List (α × Point)) (d : Point) : List (α × Point) :=
  if (heap_insert (dist q d, d) heap).length > k then (heap_insert (dist q d, d) heap).tail
  else heap_insert (dist q d, d) heap

/-- Invariant of the k-nearest heap after the leaves `seen` were visited:
the heap is in descending order of distance, holds `min k |seen|` pairs, and
together with the evicted pairs `rest` is the list of visited pairs, none
evicted being closer than one kept. -/
def HeapInv {α : Type} [LinearOrder α] (dist : Point → Point → α) (q : Point) (k : Nat)
    (heap : List (α × Point)) (seen : List Point) : Prop :=
  heap.Pairwise (fun a b => b.1 ≤ a.1) ∧ heap.length = min k seen.length ∧
    ∃ rest, (heap ++ rest).Perm (seen.map fun d => (dist q d, d)) ∧
      ∀ a ∈ heap, ∀ b ∈ rest, a.1 ≤ b.1

/-- Test that a sequence of points is strictly ascending under
`Point::operator<`: each element is less than its successor. -/
def ascending : List Point → Bool
  | [] => true
  | [_] => true
  | a :: b :: rest => a.lt b && ascending (b :: rest)

/-- Clamping of a coordinate into an interval, as the specification words
the region-to-point distance: below the interval the lower end, above it the
upper end, otherwise the coordinate itself. -/
def clamp (v lo hi : ℚ) : ℚ := if v < lo then lo else if hi < v then hi else v

/-- Test that the points of a sequence are pairwise distinct under
`Point::operator==`. -/
def pairwise_distinct : List Point → Bool
  | [] => true
  | a :: rest => rest.all (fun b => !a.eq b) && pairwise_distinct rest

/-- The points `(0,0), (1,1), …, (9,9)` that `test` in `main.cpp` inserts. -/
def demo_points : List Point :=
  [⟨0, 0⟩, ⟨1, 1⟩, ⟨2, 2⟩, ⟨3, 3⟩, ⟨4, 4⟩, ⟨5, 5⟩, ⟨6, 6⟩, ⟨7, 7⟩, ⟨8, 8⟩, ⟨9, 9⟩]

/-! ## Binary64 rounding at sample values -/

/-- Rounding to binary64: `0.1`, `-1/3`, two ties at one (to even, down and
up), three values in the subnormal range (a tie to zero, a tie up to `2⁻¹⁰⁷³`,
a tie down to `2⁻¹⁰⁷³`), the largest finite value, and the two smallest
overflowing ones. -/
theorem fl_samples :
    fl (1 / 10) = some (3602879701896397 / 2 ^ 55) ∧
    fl (-(1 / 3)) = some (-(6004799503160661 / 2 ^ 54)) ∧
    fl (1 + 1 / 2 ^ 53) = some 1 ∧
    fl (1 + 3 / 2 ^ 53) = some (1 + 1 / 2 ^ 51) ∧
    fl (1 / 2 ^ 1075) = some 0 ∧
    fl (3 / 2 ^ 1075) = some (1 / 2 ^ 1073) ∧
    fl (5 / 2 ^ 1075) = some (1 / 2 ^ 1073) ∧
    fl (2 ^ 1024 - 2 ^ 971) = some (2 ^ 1024 - 2 ^ 971) ∧
    fl (2 ^ 1024 - 2 ^ 970) = none ∧
    fl (2 ^ 1024) = none := by
  decide!

/-- The rounded square root: `√2`, `√4`, `√0.1` (of the binary64 value of
`0.1`), the smallest subnormal, and the subnormal `2026·2⁻¹⁰⁷⁴`. -/
theorem fl_sqrt_samples :
    fl_sqrt 2 = 6369051672525773 / 2 ^ 52 ∧
    fl_sqrt 4 = 2 ∧
    fl_sqrt (3602879701896397 / 2 ^ 55) = 5696652996790543 / 2 ^ 54 ∧
    fl_sqrt (1 / 2 ^ 1074) = 1 / 2 ^ 537 ∧
    fl_sqrt (2026 / 2 ^ 1074) = 6334750532852489 / 2 ^ 584 := by
  decide!

/-! ## Pointers, `find` and `restore` -/

theorem deref_nil (t : Node) : t.deref [] = some t := by
  cases t <;> simp [Node.deref, Node.get]

theorem deref_snoc_false (d : Point) (reg : Rect) (l r : Node) (q : NodePtr) :
    (Node.inner d reg l r).deref (q ++ [false]) = l.deref q := by
  simp [Node.deref, Node.get]

theorem deref_snoc_true (d : Point) (reg : Rect) (l r : Node) (q : NodePtr) :
    (Node.inner d reg l r).deref (q ++ [true]) = r.deref q := by
  simp [Node.deref, Node.get]

theorem assign_nil (t n : Node) : t.assign [] n = some n := by
  cases t <;> simp [Node.assign, Node.set]

theorem assign_snoc_false (d : Point) (reg : Rect) (l r n : Node) (q : NodePtr) :
    (Node.inner d reg l r).assign (q ++ [false]) n
      = (l.assign q n).map fun l' => Node.inner d reg l' r := by
  simp [Node.assign, Node.set]

theorem assign_snoc_true (d : Point) (reg : Rect) (l r n : Node) (q : NodePtr) :
    (Node.inner d reg l r).assign (q ++ [true]) n
      = (r.assign q n).map fun r' => Node.inner d reg l r' := by
  simp [Node.assign, Node.set]

theorem find_acc (t : Node) (ptr : NodePtr) (p : Point) (depth : Bool) :
    find t ptr p depth = ((find t [] p depth).1 ++ ptr, (find t [] p depth).2) := by
  induction t generalizing ptr depth with
  | leaf d reg => simp [find]
  | inner d reg l r ihl ihr =>
    simp only [find]
    split_ifs
    all_goals first
      | (rw [ihr (true :: ptr), ihr [true]]; simp)
      | (rw [ihl (false :: ptr), ihl [false]]; simp)

theorem find_inner (d : Point) (reg : Rect) (l r : Node) (p : Point) (depth : Bool) :
    find (Node.inner d reg l r) [] p depth =
      if coord depth d < coord depth p then
        ((find r [] p (!depth)).1 ++ [true], (find r [] p (!depth)).2)
      else ((find l [] p (!depth)).1 ++ [false], (find l [] p (!depth)).2) := by
  cases depth <;> simp only [find, coord] <;> split_ifs <;>
    first
      | rw [find_acc r [true]]
      | rw [find_acc l [false]]

theorem restore_step_nil_inner (d : Point) (reg : Rect) (l r : Node) :
    restore_step (Node.inner d reg l r) []
      = some (Node.inner d ⟨update_bottom_left l r, update_top_right l r⟩ l r) := by
  simp [restore_step, deref_nil, assign_nil]

theorem restore_step_snoc_false (d : Point) (reg : Rect) (l r : Node) (q : NodePtr) :
    restore_step (Node.inner d reg l r) (q ++ [false])
      = (restore_step l q).map fun l' => Node.inner d reg l' r := by
  unfold restore_step
  rw [deref_snoc_false]
  cases h : l.deref q with
  | none => simp
  | some n =>
    cases n with
    | leaf _ _ => simp
    | inner d1 reg1 l1 r1 => simp [assign_snoc_false]

theorem restore_step_snoc_true (d : Point) (reg : Rect) (l r : Node) (q : NodePtr) :
    restore_step (Node.inner d reg l r) (q ++ [true])
      = (restore_step r q).map fun r' => Node.inner d reg l r' := by
  unfold restore_step
  rw [deref_snoc_true]
  cases h : r.deref q with
  | none => simp
  | some n =>
    cases n with
    | leaf _ _ => simp
    | inner d1 reg1 l1 r1 => simp [assign_snoc_true]

theorem restore_snoc_false (d : Point) (reg : Rect) (l r : Node) (q : NodePtr) :
    restore (Node.inner d reg l r) (q ++ [false])
      = (restore l q).map fun l' =>
          Node.inner d ⟨update_bottom_left l' r, update_top_right l' r⟩ l' r := by
  induction q generalizing l with
  | nil =>
    show (restore_step _ ([] ++ [false])).bind _ = _
    rw [restore_step_snoc_false]
    simp only [restore]
    cases restore_step l [] <;> simp [restore_step_nil_inner]
  | cons x q ih =>
    show (restore_step _ ((x :: q) ++ [false])).bind _ = _
    rw [restore_step_snoc_false]
    simp only [restore]
    cases restore_step l (x :: q) with
    | none => simp
    | some l1 => simp [ih]

theorem restore_snoc_true (d : Point) (reg : Rect) (l r : Node) (q : NodePtr) :
    restore (Node.inner d reg l r) (q ++ [true])
      = (restore r q).map fun r' =>
          Node.inner d ⟨update_bottom_left l r', update_top_right l r'⟩ l r' := by
  induction q generalizing r with
  | nil =>
    show (restore_step _ ([] ++ [true])).bind _ = _
    rw [restore_step_snoc_true]
    simp only [restore]
    cases restore_step r [] <;> simp [restore_step_nil_inner]
  | cons x q ih =>
    show (restore_step _ ((x :: q) ++ [true])).bind _ = _
    rw [restore_step_snoc_true]
    simp only [restore]
    cases restore_step r (x :: q) with
    | none => simp
    | some r1 => simp [ih]


@[simp] theorem data_leaf (d : Point) (reg : Rect) : (Node.leaf d reg).data = d := rfl

@[simp] theorem region_leaf (d : Point) (reg : Rect) : (Node.leaf d reg).region = reg := rfl

@[simp] theorem data_inner (d : Point) (reg : Rect) (l r : Node) :
    (Node.inner d reg l r).data = d := rfl

@[simp] theorem region_inner (d : Point) (reg : Rect) (l r : Node) :
    (Node.inner d reg l r).region = reg := rfl

theorem put_body (p : Point) (t : Node) (depth : Bool) :
    ∃ d reg, t.deref (find t [] p depth).1 = some (Node.leaf d reg) ∧ d ∈ t.leaves ∧
      (d.eq p = true → insert_rec p t depth = none) ∧
      (d.eq p = false → ∃ t', insert_rec p t depth = some t' ∧
        ∀ sw : Bool, sw = (((find t [] p depth).2 && decide (d.x > p.x)) ||
              (!(find t [] p depth).2 && decide (d.y > p.y))) →
          ∀ left1 right1 : Node,
            left1 = (if sw then Node.leaf p ⟨p, p⟩ else Node.leaf d reg) →
            right1 = (if sw then Node.leaf d reg else Node.leaf p ⟨p, p⟩) →
            (t.assign (find t [] p depth).1 (Node.inner left1.data reg left1 right1)).bind
              (fun t1 => restore t1 (find t [] p depth).1) = some t') := by
  induction t generalizing depth with
  | leaf d reg =>
    refine ⟨d, reg, by simp [find, deref_nil], by simp [Node.leaves], ?_, ?_⟩
    · intro h; simp [insert_rec, h]
    · intro h
      refine ⟨split_leaf (Node.leaf d reg) p depth, by simp [insert_rec, h], ?_⟩
      intro sw hsw left1 right1 hl hr
      subst hsw hl hr
      simp [find, assign_nil, restore, restore_step_nil_inner, split_leaf]
  | inner d0 reg0 l r ihl ihr =>
    rw [find_inner]
    by_cases hc : coord depth d0 < coord depth p
    · obtain ⟨d, reg, h1, h2, h3, h4⟩ := ihr (!depth)
      simp only [hc, if_true]
      refine ⟨d, reg, by rw [deref_snoc_true]; exact h1, by simp [Node.leaves, h2], ?_, ?_⟩
      · intro h; simp [insert_rec, hc, h3 h]
      · intro h
        obtain ⟨t', ht', hres⟩ := h4 h
        refine ⟨_, by simp [insert_rec, hc, ht']; rfl, ?_⟩
        intro sw hsw left1 right1 hl hr
        have := hres sw hsw left1 right1 hl hr
        rw [assign_snoc_true]
        cases ha : r.assign (find r [] p (!depth)).1 (Node.inner left1.data reg left1 right1) with
        | none => simp [ha] at this
        | some r1 =>
          simp only [ha, Option.some_bind] at this
          simp [restore_snoc_true, this]
    · obtain ⟨d, reg, h1, h2, h3, h4⟩ := ihl (!depth)
      simp only [hc, if_false]
      refine ⟨d, reg, by rw [deref_snoc_false]; exact h1, by simp [Node.leaves, h2], ?_, ?_⟩
      · intro h; simp [insert_rec, hc, h3 h]
      · intro h
        obtain ⟨t', ht', hres⟩ := h4 h
        refine ⟨_, by simp [insert_rec, hc, ht']; rfl, ?_⟩
        intro sw hsw left1 right1 hl hr
        have := hres sw hsw left1 right1 hl hr
        rw [assign_snoc_false]
        cases ha : l.assign (find l [] p (!depth)).1 (Node.inner left1.data reg left1 right1) with
        | none => simp [ha] at this
        | some l1 =>
          simp only [ha, Option.some_bind] at this
          simp [restore_snoc_false, this]

/-- `put` on a non-empty tree, in terms of `insert_rec`. -/
theorem put_root (s : PointSet) (root : Node) (p : Point) (h : s.root = some root) :
    s.put p = match insert_rec p root true with
      | none => some s
      | some root' => PointSet.update { s with root := some root', m_size := s.m_size + 1 } := by
  obtain ⟨d, reg, h1, _, h3, h4⟩ := put_body p root true
  unfold PointSet.put
  simp only [h, h1, data_leaf, region_leaf]
  by_cases he : d.eq p = true
  · simp [he, h3 he]
  · have he' : d.eq p = false := by simpa using he
    obtain ⟨t', ht', hres⟩ := h4 he'
    have := hres _ rfl _ _ rfl rfl
    simp only [he', ht']
    cases ha : root.assign (find root [] p true).1 _ with
    | none => rw [ha] at this; simp at this
    | some r1 =>
      rw [ha] at this
      simp only [Option.some_bind] at this
      simp [ha, this]


/-! ## Leaves and cached pointers across `put` -/

theorem leaves_ne_nil (t : Node) : t.leaves ≠ [] := by
  induction t with
  | leaf d reg => simp [Node.leaves]
  | inner d reg l r ihl _ => simp [Node.leaves, ihl]

theorem leaves_split_leaf (d : Point) (reg : Rect) (p : Point) (depth : Bool) :
    (split_leaf (Node.leaf d reg) p depth).leaves.Perm (p :: [d]) := by
  unfold split_leaf
  simp only [data_leaf, region_leaf]
  split_ifs
  · simp [Node.leaves]
  · simp only [Node.leaves, List.singleton_append]
    exact List.Perm.swap _ _ _

theorem leaves_insert_rec (p : Point) (t t' : Node) (depth : Bool)
    (h : insert_rec p t depth = some t') : t'.leaves.Perm (p :: t.leaves) := by
  induction t generalizing depth t' with
  | leaf d reg =>
    simp only [insert_rec] at h
    split_ifs at h
    cases h
    exact leaves_split_leaf d reg p depth
  | inner d reg l r ihl ihr =>
    simp only [insert_rec] at h
    split_ifs at h
    · cases hr : insert_rec p r (!depth) with
      | none => simp [hr] at h
      | some r' =>
        simp only [hr, Option.map_some', Option.some.injEq] at h
        subst h
        simp only [Node.leaves]
        exact ((ihr r' _ hr).append_left l.leaves).trans List.perm_middle
    · cases hl : insert_rec p l (!depth) with
      | none => simp [hl] at h
      | some l' =>
        simp only [hl, Option.map_some', Option.some.injEq] at h
        subst h
        simp only [Node.leaves]
        exact (ihl l' _ hl).append_right r.leaves

theorem descend_left_acc (t : Node) (ptr : NodePtr) :
    descend_left t ptr = descend_left t [] ++ ptr := by
  induction t generalizing ptr with
  | leaf d reg => simp [descend_left]
  | inner d reg l r ihl _ =>
    simp only [descend_left]
    rw [ihl (false :: ptr), ihl [false]]; simp

theorem descend_right_acc (t : Node) (ptr : NodePtr) :
    descend_right t ptr = descend_right t [] ++ ptr := by
  induction t generalizing ptr with
  | leaf d reg => simp [descend_right]
  | inner d reg l r _ ihr =>
    simp only [descend_right]
    rw [ihr (true :: ptr), ihr [true]]; simp

theorem deref_descend_left (t : Node) :
    ∃ d reg, t.deref (descend_left t []) = some (Node.leaf d reg) := by
  induction t with
  | leaf d reg => exact ⟨d, reg, by simp [descend_left, deref_nil]⟩
  | inner d reg l r ihl _ =>
    obtain ⟨d1, reg1, h⟩ := ihl
    refine ⟨d1, reg1, ?_⟩
    simp only [descend_left]
    rw [descend_left_acc, deref_snoc_false, h]

theorem deref_descend_right (t : Node) :
    ∃ d reg, t.deref (descend_right t []) = some (Node.leaf d reg) := by
  induction t with
  | leaf d reg => exact ⟨d, reg, by simp [descend_right, deref_nil]⟩
  | inner d reg l r _ ihr =>
    obtain ⟨d1, reg1, h⟩ := ihr
    refine ⟨d1, reg1, ?_⟩
    simp only [descend_right]
    rw [descend_right_acc, deref_snoc_true, h]

theorem begin_after_insert (p : Point) (t t' : Node) (depth : Bool)
    (h : insert_rec p t depth = some t') :
    ∃ n, t'.deref (descend_left t []) = some n ∧
      descend_left n (descend_left t []) = descend_left t' [] := by
  induction t generalizing depth t' with
  | leaf d reg => exact ⟨t', by simp [descend_left, deref_nil]⟩
  | inner d reg l r ihl ihr =>
    simp only [insert_rec] at h
    split_ifs at h
    · cases hr : insert_rec p r (!depth) with
      | none => simp [hr] at h
      | some r' =>
        simp only [hr, Option.map_some', Option.some.injEq] at h
        subst h
        obtain ⟨d1, reg1, h1⟩ := deref_descend_left l
        refine ⟨Node.leaf d1 reg1, ?_, ?_⟩
        · simp only [descend_left]; rw [descend_left_acc, deref_snoc_false, h1]
        · simp [descend_left]
    · cases hl : insert_rec p l (!depth) with
      | none => simp [hl] at h
      | some l' =>
        simp only [hl, Option.map_some', Option.some.injEq] at h
        subst h
        obtain ⟨n, h1, h2⟩ := ihl l' _ hl
        refine ⟨n, ?_, ?_⟩
        · simp only [descend_left]; rw [descend_left_acc, deref_snoc_false, h1]
        · simp only [descend_left]
          rw [descend_left_acc l, descend_left_acc l', descend_left_acc n, ← h2,
            descend_left_acc n (descend_left l [])]
          simp

theorem end_after_insert (p : Point) (t t' : Node) (depth : Bool)
    (h : insert_rec p t depth = some t') :
    ∃ n, t'.deref (descend_right t []) = some n ∧
      descend_right n (descend_right t []) = descend_right t' [] := by
  induction t generalizing depth t' with
  | leaf d reg => exact ⟨t', by simp [descend_right, deref_nil]⟩
  | inner d reg l r ihl ihr =>
    simp only [insert_rec] at h
    split_ifs at h
    · cases hr : insert_rec p r (!depth) with
      | none => simp [hr] at h
      | some r' =>
        simp only [hr, Option.map_some', Option.some.injEq] at h
        subst h
        obtain ⟨n, h1, h2⟩ := ihr r' _ hr
        refine ⟨n, ?_, ?_⟩
        · simp only [descend_right]; rw [descend_right_acc, deref_snoc_true, h1]
        · simp only [descend_right]
          rw [descend_right_acc r, descend_right_acc r', descend_right_acc n, ← h2,
            descend_right_acc n (descend_right r [])]
          simp
    · cases hl : insert_rec p l (!depth) with
      | none => simp [hl] at h
      | some l' =>
        simp only [hl, Option.map_some', Option.some.injEq] at h
        subst h
        obtain ⟨d1, reg1, h1⟩ := deref_descend_right r
        refine ⟨Node.leaf d1 reg1, ?_, ?_⟩
        · simp only [descend_right]; rw [descend_right_acc, deref_snoc_true, h1]
        · simp [descend_right]

/-- What `put` returns: the unchanged set on a duplicate, otherwise the set
with the new tree, the size incremented and both cached pointers refreshed. -/
theorem put_consistent (s : PointSet) (p : Point) (hs : s.Consistent) :
    ∃ s', s.put p = some s' ∧ s'.Consistent ∧
      ((s.root = none ∧ s'.root = some (Node.leaf p ⟨p, p⟩)) ∨
       (∃ root, s.root = some root ∧ insert_rec p root true = none ∧ s' = s) ∨
       (∃ root root', s.root = some root ∧ insert_rec p root true = some root' ∧
          s'.root = some root')) := by
  cases hr : s.root with
  | none =>
    simp only [PointSet.Consistent, hr] at hs
    subst hs
    refine ⟨⟨some [], some [], some (Node.leaf p ⟨p, p⟩), 1⟩, ?_, ?_, Or.inl ⟨rfl, rfl⟩⟩
    · simp [PointSet.put, PointSet.empty_set, PointSet.update, PointSet.empty, deref_nil,
        descend_left, descend_right]
    · simp [PointSet.Consistent, Node.leaves, descend_left, descend_right]
  | some root =>
    simp only [PointSet.Consistent, hr] at hs
    obtain ⟨hsz, hb, he⟩ := hs
    rw [put_root s root p hr]
    cases hi : insert_rec p root true with
    | none =>
      exact ⟨s, rfl, by simp [PointSet.Consistent, hr, hsz, hb, he], Or.inr (Or.inl ⟨root, rfl, hi, rfl⟩)⟩
    | some root' =>
      obtain ⟨bn, hb1, hb2⟩ := begin_after_insert p root root' true hi
      obtain ⟨en, he1, he2⟩ := end_after_insert p root root' true hi
      have hlen := (leaves_insert_rec p root root' true hi).length_eq
      refine ⟨⟨some (descend_left root' []), some (descend_right root' []), some root',
        s.m_size + 1⟩, ?_, ?_, Or.inr (Or.inr ⟨root, root', rfl, hi, rfl⟩)⟩
      · simp [PointSet.update, PointSet.empty, hb, he, hb1, he1, hb2, he2]
      · simp [PointSet.Consistent, hlen, hsz]


/-! ## Tree invariants across `put` -/

theorem swap_iff (depth : Bool) (d p : Point) :
    ((depth && decide (d.x > p.x)) || (!depth && decide (d.y > p.y))) = true
      ↔ coord depth p < coord depth d := by
  cases depth <;> simp [coord]

theorem split_leaf_eq (d : Point) (reg : Rect) (p : Point) (depth : Bool) :
    split_leaf (Node.leaf d reg) p depth =
      if coord depth p < coord depth d then
        Node.inner p ⟨update_bottom_left (Node.leaf p ⟨p, p⟩) (Node.leaf d reg),
          update_top_right (Node.leaf p ⟨p, p⟩) (Node.leaf d reg)⟩ (Node.leaf p ⟨p, p⟩)
          (Node.leaf d reg)
      else
        Node.inner d ⟨update_bottom_left (Node.leaf d reg) (Node.leaf p ⟨p, p⟩),
          update_top_right (Node.leaf d reg) (Node.leaf p ⟨p, p⟩)⟩ (Node.leaf d reg)
          (Node.leaf p ⟨p, p⟩) := by
  unfold split_leaf
  simp only [data_leaf, region_leaf]
  by_cases hsw : ((depth && decide (d.x > p.x)) || (!depth && decide (d.y > p.y))) = true
  · have hlt := (swap_iff depth d p).mp hsw
    simp only [hsw, if_true, data_leaf, hlt]
  · have hle : ¬ coord depth p < coord depth d := fun hlt => hsw ((swap_iff depth d p).mpr hlt)
    simp only [hsw, if_false, data_leaf, hle]
    simp

theorem regionExact_split_leaf (d : Point) (reg : Rect) (p : Point) (depth : Bool)
    (h : RegionExact (Node.leaf d reg)) : RegionExact (split_leaf (Node.leaf d reg) p depth) := by
  simp only [RegionExact] at h
  subst h
  rw [split_leaf_eq]
  split_ifs <;>
    simp [RegionExact, update_bottom_left, update_top_right, Rect.get_bottom_left,
      Rect.get_top_right]

theorem regionExact_insert_rec (p : Point) (t t' : Node) (depth : Bool)
    (ht : RegionExact t) (h : insert_rec p t depth = some t') : RegionExact t' := by
  induction t generalizing depth t' with
  | leaf d reg =>
    simp only [insert_rec] at h
    split_ifs at h
    cases h
    exact regionExact_split_leaf d reg p depth ht
  | inner d reg l r ihl ihr =>
    obtain ⟨_, _, hl, hr⟩ := ht
    simp only [insert_rec] at h
    split_ifs at h
    · cases hr' : insert_rec p r (!depth) with
      | none => simp [hr'] at h
      | some r' =>
        simp only [hr', Option.map_some', Option.some.injEq] at h
        subst h
        exact ⟨by simp [update_bottom_left, Rect.get_bottom_left],
          by simp [update_top_right, Rect.get_top_right], hl, ihr r' _ hr hr'⟩
    · cases hl' : insert_rec p l (!depth) with
      | none => simp [hl'] at h
      | some l' =>
        simp only [hl', Option.map_some', Option.some.injEq] at h
        subst h
        exact ⟨by simp [update_bottom_left, Rect.get_bottom_left],
          by simp [update_top_right, Rect.get_top_right], ihl l' _ hl hl', hr⟩

theorem dataStored_insert_rec (p : Point) (t t' : Node) (depth : Bool)
    (ht : DataStored t) (h : insert_rec p t depth = some t') : DataStored t' := by
  induction t generalizing depth t' with
  | leaf d reg =>
    simp only [insert_rec] at h
    split_ifs at h
    cases h
    rw [split_leaf_eq]
    split_ifs <;> simp [DataStored, Node.leaves]
  | inner d reg l r ihl ihr =>
    obtain ⟨hd, hl, hr⟩ := ht
    simp only [insert_rec] at h
    split_ifs at h
    · cases hr' : insert_rec p r (!depth) with
      | none => simp [hr'] at h
      | some r' =>
        simp only [hr', Option.map_some', Option.some.injEq] at h
        subst h
        refine ⟨?_, hl, ihr r' _ hr hr'⟩
        have hp := leaves_insert_rec p r r' _ hr'
        rcases List.mem_append.mp hd with hd | hd
        · exact List.mem_append_left _ hd
        · exact List.mem_append_right _ (hp.mem_iff.mpr (List.mem_cons_of_mem _ hd))
    · cases hl' : insert_rec p l (!depth) with
      | none => simp [hl'] at h
      | some l' =>
        simp only [hl', Option.map_some', Option.some.injEq] at h
        subst h
        refine ⟨?_, ihl l' _ hl hl', hr⟩
        have hp := leaves_insert_rec p l l' _ hl'
        rcases List.mem_append.mp hd with hd | hd
        · exact List.mem_append_left _ (hp.mem_iff.mpr (List.mem_cons_of_mem _ hd))
        · exact List.mem_append_right _ hd

theorem routed_split_leaf (d : Point) (reg : Rect) (p : Point) (depth : Bool) :
    Routed depth (split_leaf (Node.leaf d reg) p depth) := by
  rw [split_leaf_eq]
  split_ifs with hlt
  · simp [Routed, Node.leaves, hlt.le]
  · simp [Routed, Node.leaves, not_lt.mp hlt]

theorem routed_insert_rec (p : Point) (t t' : Node) (depth : Bool)
    (ht : Routed depth t) (h : insert_rec p t depth = some t') : Routed depth t' := by
  induction t generalizing depth t' with
  | leaf d reg =>
    simp only [insert_rec] at h
    split_ifs at h
    cases h
    exact routed_split_leaf d reg p depth
  | inner d reg l r ihl ihr =>
    obtain ⟨h1, h2, hl, hr⟩ := ht
    simp only [insert_rec] at h
    split_ifs at h with hc
    · cases hr' : insert_rec p r (!depth) with
      | none => simp [hr'] at h
      | some r' =>
        simp only [hr', Option.map_some', Option.some.injEq] at h
        subst h
        refine ⟨h1, ?_, hl, ihr r' _ hr hr'⟩
        intro b hb
        rcases List.mem_cons.mp ((leaves_insert_rec p r r' _ hr').mem_iff.mp hb) with hb | hb
        · subst hb; exact hc.le
        · exact h2 b hb
    · cases hl' : insert_rec p l (!depth) with
      | none => simp [hl'] at h
      | some l' =>
        simp only [hl', Option.map_some', Option.some.injEq] at h
        subst h
        refine ⟨?_, h2, ihl l' _ hl hl', hr⟩
        intro a ha
        rcases List.mem_cons.mp ((leaves_insert_rec p l l' _ hl').mem_iff.mp ha) with ha | ha
        · subst ha; exact not_lt.mp hc
        · exact h1 a ha

theorem axisOrdered_of_routed (t : Node) (depth : Bool) (h : Routed depth t) :
    AxisOrdered depth t := by
  induction t generalizing depth with
  | leaf d reg => simp [AxisOrdered]
  | inner d reg l r ihl ihr =>
    obtain ⟨h1, h2, hl, hr⟩ := h
    exact ⟨fun a ha b hb => (h1 a ha).trans (h2 b hb), ihl _ hl, ihr _ hr⟩

/-- One `put` on a consistent set with the tree invariants: it returns, the
result is consistent, has a root, keeps the invariants, and the leaves are
those of before, with the new point added unless the call was a no-op. -/
theorem put_good (s : PointSet) (p : Point) (hs : s.Consistent) (ht : s.TreeInv) :
    ∃ s' root', s.put p = some s' ∧ s'.Consistent ∧ s'.TreeInv ∧ s'.root = some root' ∧
      (s' = s ∨ s'.leaves.Perm (p :: s.leaves)) := by
  obtain ⟨s', hput, hcons, hcase⟩ := put_consistent s p hs
  rcases hcase with ⟨h0, h1⟩ | ⟨root, h0, _, h2⟩ | ⟨root, root', h0, hi, h1⟩
  · refine ⟨s', _, hput, hcons, ?_, h1, Or.inr ?_⟩
    · simp [PointSet.TreeInv, h1, RegionExact, DataStored, Routed]
    · simp [PointSet.leaves, h0, h1, Node.leaves]
  · subst h2
    exact ⟨s', root, hput, hcons, ht, h0, Or.inl rfl⟩
  · simp only [PointSet.TreeInv, h0] at ht
    refine ⟨s', root', hput, hcons, ?_, h1, Or.inr ?_⟩
    · simp only [PointSet.TreeInv, h1]
      exact ⟨regionExact_insert_rec p root root' true ht.1 hi,
        dataStored_insert_rec p root root' true ht.2.1 hi,
        routed_insert_rec p root root' true ht.2.2 hi⟩
    · simp only [PointSet.leaves, h0, h1]
      exact leaves_insert_rec p root root' true hi

theorem putList_good (ps : List Point) (s : PointSet) (hs : s.Consistent) (ht : s.TreeInv) :
    ∃ s', PointSet.putList s ps = some s' ∧ s'.Consistent ∧ s'.TreeInv ∧
      (ps ≠ [] → ∃ root', s'.root = some root') ∧
      (∀ d ∈ s'.leaves, d ∈ ps ∨ d ∈ s.leaves) := by
  induction ps generalizing s with
  | nil => exact ⟨s, rfl, hs, ht, fun h => absurd rfl h, fun d hd => Or.inr hd⟩
  | cons p ps ih =>
    obtain ⟨s1, root1, hput, hc1, ht1, hr1, hl1⟩ := put_good s p hs ht
    obtain ⟨s2, hput2, hc2, ht2, hr2, hl2⟩ := ih s1 hc1 ht1
    refine ⟨s2, by simp [PointSet.putList, hput, hput2], hc2, ht2, ?_, ?_⟩
    · intro _
      cases ps with
      | nil =>
        simp only [PointSet.putList, Option.some.injEq] at hput2
        subst hput2
        exact ⟨root1, hr1⟩
      | cons q qs => exact hr2 (by simp)
    · intro d hd
      rcases hl2 d hd with h | h
      · exact Or.inl (List.mem_cons_of_mem _ h)
      · rcases hl1 with h1 | h1
        · subst h1; exact Or.inr h
        · rcases List.mem_cons.mp (h1.mem_iff.mp h) with h2 | h2
          · subst h2; exact Or.inl (List.mem_cons_self _ _)
          · exact Or.inr h2

theorem consistent_empty_set : PointSet.empty_set.Consistent := by
  simp [PointSet.Consistent, PointSet.empty_set]

/-- Every sequence of `put` calls returns a consistent set with the tree
invariants whose leaves hold inserted points only. -/
theorem putAll_good (ps : List Point) :
    ∃ s, PointSet.putAll ps = some s ∧ s.Consistent ∧ s.TreeInv ∧
      (ps ≠ [] → ∃ root, s.root = some root) ∧ (∀ d ∈ s.leaves, d ∈ ps) := by
  obtain ⟨s, h1, h2, h3, h4, h5⟩ :=
    putList_good ps PointSet.empty_set consistent_empty_set
      (by simp [PointSet.TreeInv, PointSet.empty_set])
  refine ⟨s, h1, h2, h3, h4, fun d hd => ?_⟩
  rcases h5 d hd with h | h
  · exact h
  · simp [PointSet.leaves, PointSet.empty_set] at h


/-! ## The successor walk -/

theorem get_append (t : Node) (p q : List Bool) :
    t.get (p ++ q) = (t.get p).bind fun n => n.get q := by
  induction p generalizing t with
  | nil => simp [Node.get]
  | cons b p ih =>
    cases t with
    | leaf d reg => simp [Node.get]
    | inner d reg l r => cases b <;> simp [Node.get, ih]

theorem deref_cons (root : Node) (b : Bool) (c : NodePtr) :
    root.deref (b :: c) = (root.deref c).bind fun n => n.get [b] := by
  simp [Node.deref, get_append]

theorem deref_false_cons (root : Node) (c : NodePtr) (d : Point) (reg : Rect) (l r : Node)
    (h : root.deref c = some (Node.inner d reg l r)) : root.deref (false :: c) = some l := by
  rw [deref_cons, h]; cases l <;> simp [Node.get]

theorem deref_true_cons (root : Node) (c : NodePtr) (d : Point) (reg : Rect) (l r : Node)
    (h : root.deref c = some (Node.inner d reg l r)) : root.deref (true :: c) = some r := by
  rw [deref_cons, h]; cases r <;> simp [Node.get]

theorem mem_descend_right (t : Node) : ∀ b ∈ descend_right t [], b = true := by
  induction t with
  | leaf d reg => simp [descend_right]
  | inner d reg l r _ ihr =>
    intro b hb
    simp only [descend_right] at hb
    rw [descend_right_acc] at hb
    rcases List.mem_append.mp hb with h | h
    · exact ihr b h
    · simpa using h

theorem next_climb_left (root : Node) (ctx : NodePtr) (d : Point) (reg : Rect) (l r : Node)
    (h : root.deref ctx = some (Node.inner d reg l r)) :
    next_climb root (false :: ctx) ctx = some ctx := by
  cases ctx with
  | nil => simp [next_climb]
  | cons x xs => simp [next_climb, Node.left_ptr, h]

theorem next_climb_right (root : Node) (x : Bool) (xs : NodePtr) (d : Point) (reg : Rect)
    (l r : Node) (h : root.deref (x :: xs) = some (Node.inner d reg l r)) :
    next_climb root (true :: x :: xs) (x :: xs) = next_climb root (x :: xs) xs := by
  simp [next_climb, Node.left_ptr, h]

theorem next_climb_spine (root : Node) (u : Node) (x : Bool) (xs : NodePtr)
    (h : root.deref (x :: xs) = some u) :
    ∃ y ys, descend_right u [] ++ (x :: xs) = y :: ys ∧
      next_climb root (y :: ys) ys = next_climb root (x :: xs) xs := by
  induction u generalizing x xs with
  | leaf d reg => exact ⟨x, xs, by simp [descend_right], rfl⟩
  | inner d reg u1 u2 _ ih2 =>
    obtain ⟨y, ys, h1, h2⟩ := ih2 true (x :: xs) (deref_true_cons root _ d reg u1 u2 h)
    refine ⟨y, ys, ?_, ?_⟩
    · simp only [descend_right]
      rw [descend_right_acc, List.append_assoc]
      exact h1
    · rw [h2, next_climb_right root x xs d reg u1 u2 h]

theorem next_skip_inner (root : Node) (ctx : NodePtr) (d : Point) (reg : Rect) (l r : Node)
    (h : root.deref ctx = some (Node.inner d reg l r)) : next_skip root ctx = some ctx := by
  cases ctx with
  | nil => simp [next_skip]
  | cons x xs => simp [next_skip, Node.right_ptr, h]

/-- From the last leaf of a left subtree `next` moves to the first leaf of
the right sibling. -/
theorem next_crossing (s : PointSet) (root : Node) (ctx : NodePtr) (d : Point) (reg : Rect)
    (l r : Node) (hroot : s.root = some root)
    (hend : s.end_pointer = some (descend_right root []))
    (h : root.deref ctx = some (Node.inner d reg l r)) :
    s.next (descend_right l [] ++ false :: ctx)
      = some (some (descend_left r [] ++ true :: ctx)) := by
  obtain ⟨y, ys, h1, h2⟩ :=
    next_climb_spine root l false ctx (deref_false_cons root ctx d reg l r h)
  have hne : ¬ (some (descend_right l [] ++ false :: ctx) = s.end_pointer) := by
    rw [hend]
    intro heq
    have hmem : false ∈ descend_right root [] := by
      rw [← Option.some.inj heq]; simp
    exact absurd (mem_descend_right root false hmem) (by simp)
  unfold PointSet.next
  rw [if_neg hne, h1]
  simp only [hroot, h2, next_climb_left root ctx d reg l r h,
    next_skip_inner root ctx d reg l r h, Node.right_ptr, h,
    deref_true_cons root ctx d reg l r h]
  rw [descend_left_acc]

/-- Iterating over the leaves of a subtree: from its first leaf the walk
yields the subtree's leaves and continues with the successor of its last
leaf. -/
theorem iterate_subtree (s : PointSet) (root : Node) (hroot : s.root = some root)
    (hend : s.end_pointer = some (descend_right root []))
    (t : Node) (ctx : NodePtr) (h : root.deref ctx = some t)
    (fuel : Nat) (nx : Option NodePtr) (hnx : s.next (descend_right t [] ++ ctx) = some nx) :
    s.iterate (fuel + t.leaves.length) (some (descend_left t [] ++ ctx))
      = (s.iterate fuel nx).map fun rest => t.leaves ++ rest := by
  induction t generalizing ctx fuel nx with
  | leaf d reg =>
    simp only [descend_right, List.nil_append] at hnx
    simp [descend_left, Node.leaves, PointSet.iterate, hroot, h, hnx]
  | inner d reg l r ihl ihr =>
    have hcross := next_crossing s root ctx d reg l r hroot hend h
    have hl := deref_false_cons root ctx d reg l r h
    have hr := deref_true_cons root ctx d reg l r h
    have hnx' : s.next (descend_right r [] ++ true :: ctx) = some nx := by
      simp only [descend_right] at hnx
      rw [descend_right_acc, List.append_assoc] at hnx
      exact hnx
    have e1 : descend_left (Node.inner d reg l r) [] ++ ctx = descend_left l [] ++ false :: ctx := by
      simp only [descend_left]
      rw [descend_left_acc, List.append_assoc]; rfl
    have e2 : fuel + (Node.inner d reg l r).leaves.length
        = (fuel + r.leaves.length) + l.leaves.length := by
      simp [Node.leaves]; omega
    rw [e1, e2, ihl (false :: ctx) hl (fuel + r.leaves.length) _ hcross,
      ihr (true :: ctx) hr fuel nx hnx']
    cases s.iterate fuel nx <;> simp [Node.leaves]

theorem next_end (s : PointSet) (e : NodePtr) (hend : s.end_pointer = some e) :
    s.next e = some none := by
  simp [PointSet.next, hend]

/-- On a consistent set the iteration from `begin()` yields the leaves from
left to right, whenever the step bound is at least the size. -/
theorem iterate_consistent (s : PointSet) (hs : s.Consistent) (fuel : Nat)
    (hf : s.size ≤ fuel) :
    s.iterate fuel s.begin_pointer = some s.leaves ∧ s.leaves.length = s.size := by
  cases hr : s.root with
  | none =>
    simp only [PointSet.Consistent, hr] at hs
    subst hs
    cases fuel <;> simp [PointSet.iterate, PointSet.empty_set, PointSet.leaves, PointSet.size]
  | some root =>
    simp only [PointSet.Consistent, hr] at hs
    obtain ⟨hsz, hb, he⟩ := hs
    have hlen : s.leaves.length = s.size := by simp [PointSet.leaves, hr, PointSet.size, hsz]
    refine ⟨?_, hlen⟩
    obtain ⟨k, rfl⟩ : ∃ k, fuel = k + root.leaves.length :=
      ⟨fuel - root.leaves.length, by simp only [PointSet.size, hsz] at hf; omega⟩
    have := iterate_subtree s root hr he root [] (deref_nil root) k none
      (by simpa using next_end s _ he)
    simp only [List.append_nil] at this
    rw [hb, this]
    cases k <;> simp [PointSet.iterate, PointSet.leaves, hr]


/-! ## Nearest neighbour -/

theorem region_contains_leaves (t : Node) (h : RegionExact t) :
    ∀ p ∈ t.leaves, t.region.contains p = true := by
  induction t with
  | leaf d reg =>
    simp only [RegionExact] at h
    subst h
    simp [Node.leaves, Rect.contains, Rect.xmin, Rect.xmax, Rect.ymin, Rect.ymax]
  | inner d reg l r ihl ihr =>
    obtain ⟨hbl, htr, hl, hr⟩ := h
    intro p hp
    simp only [Node.leaves, List.mem_append] at hp
    simp only [region_inner, Rect.contains, Rect.xmin, Rect.xmax, Rect.ymin, Rect.ymax, hbl, htr,
      Bool.and_eq_true, decide_eq_true_eq]
    rcases hp with hp | hp
    · have := ihl hl p hp
      simp only [Rect.contains, Rect.xmin, Rect.xmax, Rect.ymin, Rect.ymax,
        Bool.and_eq_true, decide_eq_true_eq] at this
      obtain ⟨⟨⟨a1, a2⟩, a3⟩, a4⟩ := this
      exact ⟨⟨⟨min_le_of_left_le a1, le_max_of_le_left a2⟩, min_le_of_left_le a3⟩,
        le_max_of_le_left a4⟩
    · have := ihr hr p hp
      simp only [Rect.contains, Rect.xmin, Rect.xmax, Rect.ymin, Rect.ymax,
        Bool.and_eq_true, decide_eq_true_eq] at this
      obtain ⟨⟨⟨a1, a2⟩, a3⟩, a4⟩ := this
      exact ⟨⟨⟨min_le_of_right_le a1, le_max_of_le_right a2⟩, min_le_of_right_le a3⟩,
        le_max_of_le_right a4⟩


/-! ## k nearest neighbours -/

theorem push_heap_snoc {α : Type} [LinearOrder α] (h : List (α × Point)) (x : α × Point) :
    push_heap (h ++ [x]) = heap_insert x h := by
  simp [push_heap]

theorem pop_heap_dropLast {α : Type} (h : List (α × Point)) : (pop_heap h).dropLast = h.tail := by
  cases h with
  | nil => simp [pop_heap]
  | cons x xs => simp [pop_heap]

theorem nearest_impl_k_with_eq {α : Type} [LinearOrder α] (dist : Point → Point → α)
    (q : Point) (k : Nat) (t : Node) (heap : List (α × Point)) :
    nearest_impl_k_with dist t q k heap = t.leaves.foldl (visit_leaf dist q k) heap := by
  induction t generalizing heap with
  | leaf d reg =>
    simp only [nearest_impl_k_with, Node.leaves, List.foldl, visit_leaf, push_heap_snoc,
      pop_heap_dropLast]
  | inner d reg l r ihl ihr =>
    simp only [nearest_impl_k_with, Node.leaves, List.foldl_append, ihl, ihr]

/-- The search without rounding is the parametrised search at the exact
squared distance. -/
theorem nearest_impl_k_exact (q : Point) (k : Nat) (t : Node) (heap : List (ℚ × Point)) :
    nearest_impl_k t q k heap = nearest_impl_k_with Point.distance t q k heap := by
  induction t generalizing heap with
  | leaf d reg => simp only [nearest_impl_k, nearest_impl_k_with]
  | inner d reg l r ihl ihr => simp only [nearest_impl_k, nearest_impl_k_with, ihl, ihr]

theorem heap_insert_perm {α : Type} [LinearOrder α] (x : α × Point) (h : List (α × Point)) :
    (heap_insert x h).Perm (x :: h) := by
  induction h with
  | nil => simp [heap_insert]
  | cons y ys ih =>
    simp only [heap_insert]
    split_ifs
    · exact List.Perm.refl _
    · exact (ih.cons y).trans (List.Perm.swap _ _ _)

theorem pair_lt_le {α : Type} [LinearOrder α] (a b : α × Point) (h : pair_lt a b = true) : a.1 ≤ b.1 := by
  simp only [pair_lt, Bool.or_eq_true, Bool.and_eq_true, decide_eq_true_eq,
    Bool.not_eq_true', decide_eq_false_iff_not] at h
  rcases h with h | ⟨h, _⟩
  · exact h.le
  · exact not_lt.mp h

theorem pair_lt_ge {α : Type} [LinearOrder α] (a b : α × Point) (h : ¬ pair_lt a b = true) : b.1 ≤ a.1 := by
  simp only [pair_lt, Bool.or_eq_true, Bool.and_eq_true, decide_eq_true_eq,
    Bool.not_eq_true', decide_eq_false_iff_not, not_or] at h
  exact not_lt.mp h.1

theorem heap_insert_sorted {α : Type} [LinearOrder α] (x : α × Point) (h : List (α × Point))
    (hs : h.Pairwise (fun a b => b.1 ≤ a.1)) :
    (heap_insert x h).Pairwise (fun a b => b.1 ≤ a.1) := by
  induction h with
  | nil => simp [heap_insert]
  | cons y ys ih =>
    obtain ⟨hy, hys⟩ := List.pairwise_cons.mp hs
    simp only [heap_insert]
    split_ifs with hc
    · refine List.pairwise_cons.mpr ⟨?_, hs⟩
      intro b hb
      rcases List.mem_cons.mp hb with hb | hb
      · subst hb; exact pair_lt_le _ _ hc
      · exact (hy b hb).trans (pair_lt_le _ _ hc)
    · refine List.pairwise_cons.mpr ⟨?_, ih hys⟩
      intro b hb
      rcases List.mem_cons.mp ((heap_insert_perm x ys).mem_iff.mp hb) with hb | hb
      · subst hb; exact pair_lt_ge _ _ hc
      · exact hy b hb

theorem heapInv_visit {α : Type} [LinearOrder α] (dist : Point → Point → α) (q : Point)
    (k : Nat) (heap : List (α × Point)) (seen : List Point) (d : Point)
    (h : HeapInv dist q k heap seen) :
    HeapInv dist q k (visit_leaf dist q k heap d) (d :: seen) := by
  obtain ⟨hsorted, hlen, rest, hperm, hrest⟩ := h
  have hperm1 := heap_insert_perm (dist q d, d) heap
  have hsorted1 := heap_insert_sorted (dist q d, d) heap hsorted
  have hlen1 : (heap_insert (dist q d, d) heap).length = heap.length + 1 := by
    simpa using hperm1.length_eq
  have hlenall : heap.length + rest.length = seen.length := by
    simpa using hperm.length_eq
  unfold visit_leaf
  split_ifs with hc
  · -- the heap exceeds k: its first element is evicted
    cases hh : heap_insert (dist q d, d) heap with
    | nil => simp [hh] at hlen1
    | cons y tl =>
      rw [hh] at hperm1 hsorted1 hlen1 hc
      obtain ⟨hy, htl⟩ := List.pairwise_cons.mp hsorted1
      simp only [List.tail_cons]
      refine ⟨htl, ?_, y :: rest, ?_, ?_⟩
      · simp only [List.length_cons] at hlen1 hc ⊢
        omega
      · simp only [List.map_cons]
        have h1 : (tl ++ y :: rest).Perm ((y :: tl) ++ rest) := List.perm_middle
        have h2 : ((y :: tl) ++ rest).Perm ((dist q d, d) :: (heap ++ rest)) :=
          hperm1.append_right rest
        exact h1.trans (h2.trans (hperm.cons _))
      · intro a ha b hb
        rcases List.mem_cons.mp hb with hb | hb
        · subst hb; exact hy a ha
        · -- `b` was evicted earlier; the present first element `y` bounds `a`
          have hyb : y.1 ≤ b.1 ∨ (y = (dist q d, d) ∧ tl.Perm heap) := by
            rcases List.mem_cons.mp (hperm1.mem_iff.mp (List.mem_cons_self y tl)) with hy1 | hy1
            · right
              refine ⟨hy1, ?_⟩
              rw [hy1] at hperm1
              exact List.Perm.cons_inv hperm1
            · left; exact hrest y hy1 b hb
          rcases hyb with hyb | ⟨_, hp⟩
          · exact (hy a ha).trans hyb
          · exact hrest a (hp.mem_iff.mp ha) b hb
  · -- the heap does not exceed k: nothing was evicted so far
    have hrest_nil : rest = [] := by
      apply List.eq_nil_of_length_eq_zero
      rw [hlen1] at hc
      have : heap.length < k := by omega
      have : heap.length = seen.length := by
        rcases Nat.le_total k seen.length with h1 | h1
        · rw [min_eq_left h1] at hlen; omega
        · rw [min_eq_right h1] at hlen; exact hlen
      omega
    subst hrest_nil
    refine ⟨hsorted1, ?_, [], ?_, by simp⟩
    · rw [hlen1] at hc ⊢
      simp only [List.length_cons]
      omega
    · simp only [List.append_nil, List.map_cons] at hperm ⊢
      exact hperm1.trans (hperm.cons _)

theorem heapInv_foldl {α : Type} [LinearOrder α] (dist : Point → Point → α) (q : Point)
    (k : Nat) (l : List Point) (heap : List (α × Point)) (seen : List Point)
    (h : HeapInv dist q k heap seen) :
    HeapInv dist q k (l.foldl (visit_leaf dist q k) heap) (l.reverse ++ seen) := by
  induction l generalizing heap seen with
  | nil => simpa using h
  | cons d l ih =>
    simp only [List.foldl_cons, List.reverse_cons, List.append_assoc, List.singleton_append]
    exact ih _ _ (heapInv_visit dist q k heap seen d h)

/-- The heap after the k-nearest search of a tree, for every way of computing
the distance. -/
theorem nearest_impl_k_with_spec {α : Type} [LinearOrder α] (dist : Point → Point → α)
    (q : Point) (k : Nat) (t : Node) :
    (nearest_impl_k_with dist t q k []).length = min k t.leaves.length ∧
    ∃ rest : List Point,
      ((nearest_impl_k_with dist t q k []).map Prod.snd ++ rest).Perm t.leaves ∧
      ∀ a ∈ (nearest_impl_k_with dist t q k []).map Prod.snd, ∀ b ∈ rest,
        dist q a ≤ dist q b := by
  have hinv := heapInv_foldl dist q k t.leaves [] [] (by simp [HeapInv])
  rw [← nearest_impl_k_with_eq] at hinv
  obtain ⟨_, hlen, rest, hperm, hrest⟩ := hinv
  simp only [List.append_nil, List.length_reverse] at hlen hperm
  have hform : ∀ e ∈ nearest_impl_k_with dist t q k [] ++ rest, e.1 = dist q e.2 := by
    intro e he
    have := hperm.mem_iff.mp he
    simp only [List.mem_map, List.mem_reverse] at this
    obtain ⟨d, _, rfl⟩ := this
    rfl
  refine ⟨hlen, rest.map Prod.snd, ?_, ?_⟩
  · have := hperm.map Prod.snd
    simp only [List.map_append, List.map_map] at this
    refine this.trans ?_
    have hid : (Prod.snd ∘ fun d => (dist q d, d)) = id := by funext d; rfl
    rw [hid, List.map_id]
    exact List.reverse_perm _
  · intro a ha b hb
    obtain ⟨ea, hea, rfl⟩ := List.mem_map.mp ha
    obtain ⟨eb, heb, rfl⟩ := List.mem_map.mp hb
    rw [← hform ea (List.mem_append_left _ hea), ← hform eb (List.mem_append_right _ heb)]
    exact hrest ea hea eb heb

/-- The heap after the k-nearest search of a tree without rounding. -/
theorem nearest_impl_k_spec (q : Point) (k : Nat) (t : Node) :
    (nearest_impl_k t q k []).length = min k t.leaves.length ∧
    ∃ rest : List Point,
      ((nearest_impl_k t q k []).map Prod.snd ++ rest).Perm t.leaves ∧
      ∀ a ∈ (nearest_impl_k t q k []).map Prod.snd, ∀ b ∈ rest,
        q.distance a ≤ q.distance b := by
  rw [nearest_impl_k_exact]
  exact nearest_impl_k_with_spec Point.distance q k t

/-- The query without rounding is the parametrised query at the exact squared
distance. -/
theorem nearest_k_with_exact (s : PointSet) (q : Point) (k : Nat) :
    s.nearest_k_with Point.distance q k = s.nearest_k q k := by
  cases hr : s.root with
  | none => simp [PointSet.nearest_k_with, PointSet.nearest_k, PointSet.nearest_heap, hr]
  | some root =>
    simp [PointSet.nearest_k_with, PointSet.nearest_k, PointSet.nearest_heap, hr,
      nearest_impl_k_exact]


/-! ## Membership -/

theorem is_equal_comm (x y : ℚ) : is_equal x y = is_equal y x := by
  simp only [is_equal, abs_sub_comm]

theorem eq_comm_point (p q : Point) : p.eq q = q.eq p := by
  simp only [Point.eq, is_equal_comm]

theorem contains_true_leaf (s : PointSet) (p : Point) (h : s.contains p = some true) :
    ∃ d ∈ s.leaves, p.eq d = true := by
  unfold PointSet.contains at h
  cases hr : s.root with
  | none => simp [hr] at h
  | some root =>
    obtain ⟨d, reg, h1, h2, _⟩ := put_body p root true
    simp only [hr, h1, data_leaf, Option.some.injEq] at h
    exact ⟨d, by simpa [PointSet.leaves, hr] using h2, h⟩

/-! ## The claims -/

/-- C1, failing input: after `put((0,0))` and `put((0,1))` on an empty set,
`contains((0,1))` returns false.  The two points tie on the split coordinate
`x`; `put` stores the new point in the right child while `find` turns left on
a tie and ends at the leaf holding `(0,0)`. -/
theorem contains_misses_tied_point :
    (PointSet.putAll [⟨0, 0⟩, ⟨0, 1⟩]).map (fun s => (s.leaves, s.contains ⟨0, 1⟩))
      = some ([⟨0, 0⟩, ⟨0, 1⟩], some false) := by
  decide!

/-- C2, failing input: after `put` of `(-100,-100)`, `(-1,4)`, `(11,6)`,
`(5,5)` the point `(5,5)` is held by a leaf and lies in the rectangle
`[0,10]×[0,10]`, yet `range` returns the empty sequence: `Rect::intersects`
answers false for the region `[-1,11]×[4,6]` of the right subtree, which
crosses the rectangle from side to side, and the subtree is pruned. -/
theorem range_omits_stored_point :
    (PointSet.putAll [⟨-100, -100⟩, ⟨-1, 4⟩, ⟨11, 6⟩, ⟨5, 5⟩]).map
        (fun s => (s.leaves, s.range ⟨⟨0, 0⟩, ⟨10, 10⟩⟩))
      = some ([⟨-100, -100⟩, ⟨-1, 4⟩, ⟨5, 5⟩, ⟨11, 6⟩], some []) ∧
    Rect.contains ⟨⟨0, 0⟩, ⟨10, 10⟩⟩ ⟨5, 5⟩ = true ∧
    Rect.intersects ⟨⟨0, 0⟩, ⟨10, 10⟩⟩ ⟨⟨-1, 4⟩, ⟨11, 6⟩⟩ = false := by
  decide!

/-- C3, failing input: after `put` of `(0, a)` with `a = 2881·2⁻⁵⁴³`,
`(1,-1)`, `(-1,-5)` and `(2⁻⁶⁰⁰, 1)` the leaves hold these four points, and
`nearest((0,0))` in binary64 returns `(1,-1)`, whose computed distance is
`fl(√2)`.  Two stored points are strictly closer, by their computed distances
(`6334750532852489·2⁻⁵⁸⁴` for `(0,a)` and `1` for `(2⁻⁶⁰⁰,1)`) and by their
exact ones.  The square `a·a` is rounded in the subnormal range, so the bound
`min` computed from the root key `(0,a)` is below `a`, while `Rect::distance`
of the leaf region of `(0,a)` returns the unrounded difference `a`: the test
`region.distance(point) <= min` fails for the leaf that holds the closest
point, as it does for the other three leaves, and the two children of the
root answer with their own keys `(-1,-5)` and `(1,-1)`. -/
theorem nearest_misses_closest :
    (PointSet.putAll [⟨0, 2881 / 2 ^ 543⟩, ⟨1, -1⟩, ⟨-1, -5⟩, ⟨1 / 2 ^ 600, 1⟩]).map
        (fun s => (s.leaves, s.nearest64 ⟨0, 0⟩))
      = some ([⟨-1, -5⟩, ⟨0, 2881 / 2 ^ 543⟩, ⟨1, -1⟩, ⟨1 / 2 ^ 600, 1⟩],
          some (some ⟨1, -1⟩)) ∧
    Point.distance64 ⟨0, 0⟩ ⟨1, -1⟩ = some (6369051672525773 / 2 ^ 52) ∧
    Point.distance64 ⟨0, 0⟩ ⟨1 / 2 ^ 600, 1⟩ = some 1 ∧
    Point.distance64 ⟨0, 0⟩ ⟨0, 2881 / 2 ^ 543⟩ = some (6334750532852489 / 2 ^ 584) ∧
    Rect.distance64 ⟨⟨0, 2881 / 2 ^ 543⟩, ⟨0, 2881 / 2 ^ 543⟩⟩ ⟨0, 0⟩ = some (2881 / 2 ^ 543) ∧
    (6334750532852489 / 2 ^ 584 : ℚ) < 2881 / 2 ^ 543 ∧
    Point.distance ⟨0, 0⟩ ⟨0, 2881 / 2 ^ 543⟩ < Point.distance ⟨0, 0⟩ ⟨1, -1⟩ ∧
    Point.distance ⟨0, 0⟩ ⟨1 / 2 ^ 600, 1⟩ < Point.distance ⟨0, 0⟩ ⟨1, -1⟩ := by
  decide!

/-- C4, failing input: on the set holding `(0,0)`, a first `put((0,1))` gives
size 2 and iteration `(0,0), (0,1)`; the second `put((0,1))` gives size 3 and
iteration `(0,0), (0,1), (0,1)`.  The duplicate test reads the leaf that
`find` reaches, which is `(0,0)` because of the tie on `x`. -/
theorem put_twice_grows :
    (PointSet.putAll [⟨0, 0⟩, ⟨0, 1⟩]).map (fun s => (s.size, s.iterate 3 s.begin_pointer))
      = some (2, some [⟨0, 0⟩, ⟨0, 1⟩]) ∧
    (PointSet.putAll [⟨0, 0⟩, ⟨0, 1⟩, ⟨0, 1⟩]).map (fun s => (s.size, s.iterate 3 s.begin_pointer))
      = some (3, some [⟨0, 0⟩, ⟨0, 1⟩, ⟨0, 1⟩]) := by
  decide!

/-- C6: for every non-empty tree built by `put` calls, every query point `q`
and every `k`, the sequence returned by `nearest(q, k)` has exactly
`min(k, size())` elements; for `k = 0` it is empty. -/
theorem nearest_k_length (p : Point) (ps : List Point) (q : Point) (k : Nat) :
    ∃ s res, PointSet.putAll (p :: ps) = some s ∧ s.nearest_k q k = some res ∧
      res.length = min k s.size ∧ (k = 0 → res = []) := by
  obtain ⟨s, hs, hcons, _, hroot, _⟩ := putAll_good (p :: ps)
  obtain ⟨root, hr⟩ := hroot (by simp)
  simp only [PointSet.Consistent, hr] at hcons
  obtain ⟨hlen, _⟩ := nearest_impl_k_spec q k root
  have hl : ((nearest_impl_k root q k []).map Prod.snd).length = min k s.size := by
    simp [PointSet.size, hcons.1, hlen]
  refine ⟨s, (nearest_impl_k root q k []).map Prod.snd, hs,
    by simp [PointSet.nearest_k, PointSet.nearest_heap, hr], hl, ?_⟩
  intro hk
  apply List.eq_nil_of_length_eq_zero
  rw [hl, hk]; simp

/-- C7, counterexample: after `put((0,1))` and `put((1,0))` the iteration
from `begin()` to `end()` yields `(0,1), (1,0)`, which is not ascending under
`operator<` (the second coordinate decides, and `1 < 0` is false). -/
theorem iteration_not_ascending :
    ∃ s l, PointSet.putAll [⟨0, 1⟩, ⟨1, 0⟩] = some s ∧
      s.iterate s.size s.begin_pointer = some l ∧ l = [⟨0, 1⟩, ⟨1, 0⟩] ∧ ascending l = false :=
  ⟨⟨some [false], some [true],
      some (Node.inner ⟨0, 1⟩ ⟨⟨0, 0⟩, ⟨1, 1⟩⟩ (Node.leaf ⟨0, 1⟩ ⟨⟨0, 1⟩, ⟨0, 1⟩⟩)
        (Node.leaf ⟨1, 0⟩ ⟨⟨1, 0⟩, ⟨1, 0⟩⟩)), 2⟩,
    [⟨0, 1⟩, ⟨1, 0⟩], by decide!, by decide!, rfl, by decide!⟩

/-- C7, amended: for every tree built by a sequence of `put` calls, the
iteration from `begin()` to `end()` yields the leaves in left-to-right tree
order, and that order follows the alternating split coordinate rather than
`operator<`: at every internal node of depth `d`, each leaf of the left
subtree has a coordinate (`x` for even `d`, `y` for odd `d`) not above that of
each leaf of the right subtree. -/
theorem iteration_axis_ordered (ps : List Point) :
    ∃ s, PointSet.putAll ps = some s ∧
      (∀ fuel, s.size ≤ fuel → s.iterate fuel s.begin_pointer = some s.leaves) ∧
      ∀ root, s.root = some root → AxisOrdered true root := by
  obtain ⟨s, hs, hcons, hinv, _, _⟩ := putAll_good ps
  refine ⟨s, hs, fun fuel hf => (iterate_consistent s hcons fuel hf).1, ?_⟩
  intro root hr
  simp only [PointSet.TreeInv, hr] at hinv
  exact axisOrdered_of_routed root true hinv.2.2

/-- C8: for every tree built by a sequence of `put` calls, applying `next`
repeatedly from the cached begin pointer reaches the end sentinel after
yielding the points of the leaves from left to right, each leaf once; any step
bound of at least `size()` suffices, and the number of points is `size()`. -/
theorem traversal_complete (ps : List Point) :
    ∃ s, PointSet.putAll ps = some s ∧
      ∀ fuel, s.size ≤ fuel →
        s.iterate fuel s.begin_pointer = some s.leaves ∧ s.leaves.length = s.size := by
  obtain ⟨s, hs, hcons, _, _, _⟩ := putAll_good ps
  exact ⟨s, hs, fun fuel hf => iterate_consistent s hcons fuel hf⟩

/-- C9: for every tree built by a sequence of `put` calls and every point `p`,
if `contains(p)` returns true then some inserted point equals `p` under
`operator==`. -/
theorem contains_sound (ps : List Point) (p : Point) :
    ∃ s, PointSet.putAll ps = some s ∧
      (s.contains p = some true → ∃ d ∈ ps, p.eq d = true ∧ d.eq p = true) := by
  obtain ⟨s, hs, _, _, _, hleaves⟩ := putAll_good ps
  refine ⟨s, hs, fun h => ?_⟩
  obtain ⟨d, hd, he⟩ := contains_true_leaf s p h
  exact ⟨d, hleaves d hd, he, by rw [eq_comm_point]; exact he⟩

/-- C10: after any sequence of `put` calls, every internal node's cached
region has as bottom-left corner the coordinate-wise minimum of its children's
bottom-left corners and as top-right corner the coordinate-wise maximum of
their top-right corners, and every leaf's region is the degenerate rectangle
at its point. -/
theorem region_invariant (ps : List Point) :
    ∃ s, PointSet.putAll ps = some s ∧ ∀ root, s.root = some root → RegionExact root := by
  obtain ⟨s, hs, _, hinv, _, _⟩ := putAll_good ps
  refine ⟨s, hs, fun root hr => ?_⟩
  simp only [PointSet.TreeInv, hr] at hinv
  exact hinv.1


/-! ## Bulk construction -/

theorem lambda_eq (depth : Bool) (a b : Point) :
    lambda depth a b = decide (coord depth a < coord depth b) := by
  cases depth <;> simp [lambda, coord]

theorem sort_perm (depth : Bool) (l : List Point) : (sort depth l).Perm l :=
  List.perm_insertionSort _ l

theorem sort_sorted (depth : Bool) (l : List Point) :
    (sort depth l).Pairwise fun a b => coord depth a ≤ coord depth b := by
  haveI : IsTotal Point (fun a b => lambda depth b a = false) :=
    ⟨fun a b => by simp only [lambda_eq, decide_eq_false_iff_not, not_lt]; exact le_total _ _⟩
  haveI : IsTrans Point (fun a b => lambda depth b a = false) :=
    ⟨fun a b c h1 h2 => by
      simp only [lambda_eq, decide_eq_false_iff_not, not_lt] at h1 h2 ⊢
      exact le_trans h1 h2⟩
  have h := List.sorted_insertionSort (fun a b => lambda depth b a = false) l
  refine List.Pairwise.imp ?_ h
  intro a b hab
  simpa only [lambda_eq, decide_eq_false_iff_not, not_lt] using hab

theorem dropWhile_sorted (depth : Bool) (mid : Point) (l : List Point)
    (hs : l.Pairwise fun a b => coord depth a ≤ coord depth b) :
    ∀ c ∈ l.dropWhile (fun a => !lambda depth mid a), coord depth mid < coord depth c := by
  induction l with
  | nil => simp
  | cons a l ih =>
    obtain ⟨ha, hl⟩ := List.pairwise_cons.mp hs
    intro c hc
    by_cases hp : (!lambda depth mid a) = true
    · rw [List.dropWhile_cons, if_pos hp] at hc
      exact ih hl c hc
    · rw [List.dropWhile_cons, if_neg hp] at hc
      have hlt : coord depth mid < coord depth a := by
        simpa [lambda_eq] using hp
      rcases List.mem_cons.mp hc with h | h
      · subst h; exact hlt
      · exact lt_of_lt_of_le hlt (ha c h)

/-- The split that `build_tree` computes on a sorted non-empty range: the
index `median` is at least the middle index and inside the range; the left
part holds coordinates not above the middle one, the right part starts with an
element tied with the middle one and continues with strictly larger ones. -/
theorem split_sorted (depth : Bool) (l : List Point) (hl : l ≠ [])
    (hs : l.Pairwise fun a b => coord depth a ≤ coord depth b) :
    ∃ mid median last tail, l[l.length / 2]? = some mid ∧
      median_index depth l = some median ∧ l.length / 2 ≤ median ∧ median < l.length ∧
      l.drop median = last :: tail ∧ coord depth last = coord depth mid ∧
      (∀ a ∈ l.take median, coord depth a ≤ coord depth mid) ∧
      (∀ c ∈ tail, coord depth mid < coord depth c) := by
  have hn : 0 < l.length := List.length_pos.mpr hl
  have hk : l.length / 2 < l.length := Nat.div_lt_self hn (by norm_num)
  generalize hkdef : l.length / 2 = k at hk
  have hmid : l[k]? = some l[k] := List.getElem?_eq_getElem hk
  generalize hmdef : l[k] = mid at hmid
  have hdecomp : l = l.take k ++ mid :: l.drop (k + 1) := by
    conv_lhs => rw [← List.take_append_drop k l, List.drop_eq_getElem_cons hk, hmdef]
  generalize hl1 : l.take k = l1 at hdecomp
  generalize hl2 : l.drop (k + 1) = l2 at hdecomp
  have hlen1 : l1.length = k := by rw [← hl1, List.length_take]; omega
  rw [hdecomp] at hs
  obtain ⟨hs1, hs2, hs12⟩ := List.pairwise_append.mp hs
  obtain ⟨hmid2, hs2'⟩ := List.pairwise_cons.mp hs2
  have hp1 : ∀ a ∈ l1, (!lambda depth mid a) = true := by
    intro a ha
    have := hs12 a ha mid (List.mem_cons_self _ _)
    simpa [lambda_eq] using this
  have hpmid : (!lambda depth mid mid) = true := by simp [lambda_eq]
  have htw : l.takeWhile (fun a => !lambda depth mid a)
      = l1 ++ mid :: l2.takeWhile (fun a => !lambda depth mid a) := by
    rw [hdecomp, List.takeWhile_append_of_pos hp1, List.takeWhile_cons, if_pos hpmid]
  have hdw : l.dropWhile (fun a => !lambda depth mid a)
      = l2.dropWhile (fun a => !lambda depth mid a) := by
    rw [hdecomp, List.dropWhile_append_of_pos hp1, List.dropWhile_cons, if_pos hpmid]
  generalize htw2 : l2.takeWhile (fun a => !lambda depth mid a) = tw2 at htw
  have htw2mem : ∀ a ∈ tw2, coord depth a = coord depth mid := by
    intro a ha
    rw [← htw2] at ha
    have h1 : coord depth a ≤ coord depth mid := by
      simpa [lambda_eq] using List.mem_takeWhile_imp ha
    exact le_antisymm h1 (hmid2 a ((List.takeWhile_sublist _).subset ha))
  have hfull : l = (l1 ++ mid :: tw2) ++ l2.dropWhile (fun a => !lambda depth mid a) := by
    rw [← htw, ← hdw, List.takeWhile_append_dropWhile]
  have hub : upper_bound depth l mid = k + 1 + tw2.length := by
    simp [upper_bound, htw, hlen1]; omega
  have hmed : median_index depth l = some (k + tw2.length) := by
    simp only [median_index, hkdef, hmid, hub]; congr 1; omega
  have hdwall := dropWhile_sorted depth mid l2 hs2'
  have hlenl : l.length = k + 1 + tw2.length
      + (l2.dropWhile (fun a => !lambda depth mid a)).length := by
    conv_lhs => rw [hfull]
    simp [hlen1]; omega
  rcases List.eq_nil_or_concat tw2 with h0 | ⟨init, z, h0⟩
  · subst h0
    refine ⟨mid, k, mid, l2.dropWhile (fun a => !lambda depth mid a), hmid, by simpa using hmed,
      le_refl _, hk, ?_, rfl, ?_, hdwall⟩
    · conv_lhs => rw [hfull]
      rw [List.append_assoc]
      exact List.drop_left' hlen1
    · intro a ha
      have : l.take k = l1 := hl1
      rw [this] at ha
      simpa [lambda_eq] using hp1 a ha
  · rw [List.concat_eq_append] at h0
    subst h0
    have hz := htw2mem z (by simp)
    have hA : (l1 ++ mid :: init).length = k + (init ++ [z]).length := by
      simp only [List.length_append, List.length_cons, List.length_nil, hlen1]
    have hsplit : l = (l1 ++ mid :: init)
        ++ z :: l2.dropWhile (fun a => !lambda depth mid a) := by
      conv_lhs => rw [hfull]
      simp
    refine ⟨mid, k + (init ++ [z]).length, z,
      l2.dropWhile (fun a => !lambda depth mid a), hmid, hmed, by omega, by omega, ?_, hz, ?_,
      hdwall⟩
    · conv_lhs => rw [hsplit]
      exact List.drop_left' hA
    · intro a ha
      have htake : l.take (k + (init ++ [z]).length) = l1 ++ mid :: init := by
        conv_lhs => rw [hsplit]
        exact List.take_left' hA
      rw [htake] at ha
      rcases List.mem_append.mp ha with h | h
      · simpa [lambda_eq] using hp1 a h
      · rcases List.mem_cons.mp h with h | h
        · rw [h]
        · exact (htw2mem a (by simp [h])).le


theorem build_tree_cons_cons (fuel : Nat) (p q : Point) (rest : List Point) (depth : Bool) :
    build_tree (fuel + 1) (p :: q :: rest) depth =
      match median_index depth (sort depth (p :: q :: rest)) with
      | none => none
      | some median =>
        match build_tree fuel ((sort depth (p :: q :: rest)).take median) (!depth) with
        | none => none
        | some (left_son, left_slice) =>
          match build_tree fuel ((sort depth (p :: q :: rest)).drop median) (!depth) with
          | none => none
          | some (right_son, right_slice) =>
            match right_slice.head? with
            | none => none
            | some data =>
              some (Node.inner data
                ⟨update_bottom_left left_son right_son, update_top_right left_son right_son⟩
                left_son right_son, left_slice ++ right_slice) := by
  rw [build_tree]
  intro p1 h
  simp at h

/-- The builder returns on every non-empty range once the recursion bound is
at least its length; the leaves of the tree are a permutation of the range, so
is the range it leaves behind, and the regions are exact. -/
theorem build_tree_spec (fuel : Nat) (slice : List Point) (depth : Bool) (hne : slice ≠ [])
    (hf : slice.length ≤ fuel) :
    ∃ n out, build_tree fuel slice depth = some (n, out) ∧ n.leaves.Perm slice ∧
      out.Perm slice ∧ RegionExact n := by
  induction fuel generalizing slice depth with
  | zero =>
    exact absurd (List.eq_nil_of_length_eq_zero (Nat.le_zero.mp hf)) hne
  | succ fuel ih =>
    match slice, hne, hf with
    | [p], _, _ =>
      exact ⟨Node.leaf p ⟨p, p⟩, [p], by simp [build_tree], by simp [Node.leaves],
        List.Perm.refl _, by simp [RegionExact]⟩
    | p :: q :: rest, _, hf =>
      have hsp := sort_perm depth (p :: q :: rest)
      have hlen : (sort depth (p :: q :: rest)).length = rest.length + 2 := by
        simpa using hsp.length_eq
      have hsne : sort depth (p :: q :: rest) ≠ [] := by
        intro h; rw [h] at hlen; simp at hlen
      obtain ⟨mid, median, last, tail, _, h2, h3, h4, h5, _, _, _⟩ :=
        split_sorted depth _ hsne (sort_sorted depth (p :: q :: rest))
      generalize hsorted : sort depth (p :: q :: rest) = sorted at *
      have hmed1 : 1 ≤ median := by
        have : 1 ≤ sorted.length / 2 := by rw [hlen]; omega
        omega
      have hLne : sorted.take median ≠ [] := by
        intro h
        have := congrArg List.length h
        simp only [List.length_take, List.length_nil] at this
        omega
      have hLlen : (sorted.take median).length ≤ fuel := by
        simp only [List.length_take, List.length_cons] at hf ⊢
        omega
      have hRne : sorted.drop median ≠ [] := by rw [h5]; simp
      have hRlen : (sorted.drop median).length ≤ fuel := by
        simp only [List.length_drop, List.length_cons] at hf ⊢
        omega
      obtain ⟨ln, lout, hl1, hl2, hl3, hl4⟩ := ih (sorted.take median) (!depth) hLne hLlen
      obtain ⟨rn, rout, hr1, hr2, hr3, hr4⟩ := ih (sorted.drop median) (!depth) hRne hRlen
      have hroutne : rout ≠ [] := by
        intro h
        rw [h] at hr3
        exact hRne hr3.symm.eq_nil
      obtain ⟨data, rtl, hrout⟩ := List.exists_cons_of_ne_nil hroutne
      have hparts : (sorted.take median ++ sorted.drop median).Perm (p :: q :: rest) := by
        rw [List.take_append_drop]; exact hsp
      refine ⟨Node.inner data ⟨update_bottom_left ln rn, update_top_right ln rn⟩ ln rn,
        lout ++ rout, ?_, ?_, ?_, ?_⟩
      · rw [build_tree_cons_cons, hsorted]
        simp only [h2, hl1, hr1, hrout, List.head?_cons]
      · simp only [Node.leaves]
        exact (hl2.append hr2).trans hparts
      · exact (hl3.append hr3).trans hparts
      · exact ⟨by simp [update_bottom_left, Rect.get_bottom_left],
          by simp [update_top_right, Rect.get_top_right], hl4, hr4⟩


theorem mem_descend_left (t : Node) : ∀ b ∈ descend_left t [], b = false := by
  induction t with
  | leaf d reg => simp [descend_left]
  | inner d reg l r ihl _ =>
    intro b hb
    simp only [descend_left] at hb
    rw [descend_left_acc] at hb
    rcases List.mem_append.mp hb with h | h
    · exact ihl b h
    · simpa using h

/-! ## The claims, continued -/

/-- C11, failing input: after `put((0,0))`, `put((0,1))`, `put((0,1))` the
leaves hold `(0,0), (0,1), (0,1)`: two leaves hold points equal under
`operator==`.  The second `put((0,1))` is routed by `find` to the leaf of
`(0,0)` (tie on `x`), so the duplicate goes unnoticed. -/
theorem leaves_not_distinct :
    (PointSet.putAll [⟨0, 0⟩, ⟨0, 1⟩, ⟨0, 1⟩]).map (fun s => (s.leaves, pairwise_distinct s.leaves))
      = some ([⟨0, 0⟩, ⟨0, 1⟩, ⟨0, 1⟩], false) := by
  decide!

/-- C12: for every tree reachable from the empty tree by `put` calls, none
included, and every `q`, `nearest(q)` is the absent value if and only if
`size()` is 0. -/
theorem nearest_none_iff_empty (ps : List Point) (q : Point) :
    ∃ s, PointSet.putAll ps = some s ∧ (s.nearest q = none ↔ s.size = 0) := by
  obtain ⟨s, hs, hcons, _, _, _⟩ := putAll_good ps
  refine ⟨s, hs, ?_⟩
  cases hr : s.root with
  | none =>
    simp only [PointSet.Consistent, hr] at hcons
    subst hcons
    simp [PointSet.nearest, PointSet.size, PointSet.empty_set]
  | some root =>
    simp only [PointSet.Consistent, hr] at hcons
    have hpos := List.length_pos.mpr (leaves_ne_nil root)
    simp only [PointSet.nearest, hr, PointSet.size, hcons.1]
    constructor
    · intro h; cases h
    · intro h; omega

/-- C13: after `put` of `(0,0), …, (9,9)` in that order into an empty set,
`contains((i,i))` is true for each of the ten points, the range query on
`[3,3]-[7,7]` yields `(3,3), (4,4), (5,5), (6,6), (7,7)`, and
`nearest((5,5), 3)` yields three points, among them `(4,4)`, `(5,5)` and
`(6,6)`. -/
theorem demo_scenario :
    (PointSet.putAll demo_points).map (fun s => demo_points.map s.contains)
      = some (List.replicate 10 (some true)) ∧
    (PointSet.putAll demo_points).bind (fun s => s.range ⟨⟨3, 3⟩, ⟨7, 7⟩⟩)
      = some [⟨3, 3⟩, ⟨4, 4⟩, ⟨5, 5⟩, ⟨6, 6⟩, ⟨7, 7⟩] ∧
    ((PointSet.putAll demo_points).bind fun s => s.nearest_k ⟨5, 5⟩ 3).map
        (fun res => (res.length, [⟨4, 4⟩, ⟨5, 5⟩, ⟨6, 6⟩].map fun p => decide (p ∈ res)))
      = some (3, [true, true, true]) := by
  decide!

/-- C14: for every non-empty range `p :: ps`, either depth parity and every
recursion bound of at least the length, `build_tree` returns a tree (a node
has both child links null or both set) whose leaves hold a permutation of the
points of the range, and in which every internal node's region is the
coordinate-wise union of its children's regions and every leaf's region is the
degenerate rectangle at its point. -/
theorem build_tree_keeps_points (p : Point) (ps : List Point) (depth : Bool) (extra : Nat) :
    ∃ n out, build_tree ((p :: ps).length + extra) (p :: ps) depth = some (n, out) ∧
      n.leaves.Perm (p :: ps) ∧ RegionExact n := by
  obtain ⟨n, out, h1, h2, _, h4⟩ :=
    build_tree_spec ((p :: ps).length + extra) (p :: ps) depth (by simp) (by omega)
  exact ⟨n, out, h1, h2, h4⟩

/-- C15, failing input: `constructor_impl` on a default-constructed set with
the one-point collection `(0,0)` builds a tree with one leaf, and `size()`
stays 0 and `empty()` true: `m_size` is not assigned on this path, and the
`update()` that follows returns at once, so the cached begin pointer stays
null as well. -/
theorem bulk_size_stays_zero :
    (PointSet.constructor_impl PointSet.empty_set [⟨0, 0⟩]).map
        (fun s => (s.size, s.empty, s.leaves, s.begin_pointer))
      = some (0, true, [⟨0, 0⟩], none) := by
  decide!

/-- C16, failing input: `constructor_impl` on the collection
`(0,0), (1,1), (0,0)` builds a tree whose leaves hold `(0,0)` twice:
`std::unique` removes equal neighbours only and the collection is not sorted
before it. -/
theorem bulk_keeps_duplicates :
    unique [⟨0, 0⟩, ⟨1, 1⟩, ⟨0, 0⟩] = [⟨0, 0⟩, ⟨1, 1⟩, ⟨0, 0⟩] ∧
    (PointSet.constructor_impl PointSet.empty_set [⟨0, 0⟩, ⟨1, 1⟩, ⟨0, 0⟩]).map
        (fun s => (s.leaves, pairwise_distinct s.leaves))
      = some ([⟨0, 0⟩, ⟨0, 0⟩, ⟨1, 1⟩], false) := by
  decide!

/-- C17, failing input: for the rectangle with both corners at `(0,0)` and
the point `p = (2⁻⁶⁰⁰, 2⁻⁶⁰⁰)`, `contains(p)` is false and the clamped point
is `(0,0)`, at the exact squared distance `2⁻¹¹⁹⁹` from `p`, yet
`Rect::distance(p)` in binary64 returns `0`: both squares underflow to zero
in `Point::distance`.  For the point `(0, a)` with `a = 2881·2⁻⁵⁴³` the same
rectangle returns the coordinate difference `a`, while `Point::distance` from
`(0,a)` to the clamped point `(0,0)` returns `6334750532852489·2⁻⁵⁸⁴`, which
is smaller. -/
theorem rect_distance_underflow :
    Rect.contains ⟨⟨0, 0⟩, ⟨0, 0⟩⟩ ⟨1 / 2 ^ 600, 1 / 2 ^ 600⟩ = false ∧
    Rect.distance64 ⟨⟨0, 0⟩, ⟨0, 0⟩⟩ ⟨1 / 2 ^ 600, 1 / 2 ^ 600⟩ = some 0 ∧
    (⟨clamp (1 / 2 ^ 600) 0 0, clamp (1 / 2 ^ 600) 0 0⟩ : Point) = ⟨0, 0⟩ ∧
    Point.distance ⟨1 / 2 ^ 600, 1 / 2 ^ 600⟩ ⟨0, 0⟩ = 1 / 2 ^ 1199 ∧
    Rect.distance64 ⟨⟨0, 0⟩, ⟨0, 0⟩⟩ ⟨0, 2881 / 2 ^ 543⟩ = some (2881 / 2 ^ 543) ∧
    Point.distance64 ⟨0, 2881 / 2 ^ 543⟩ ⟨clamp 0 0 0, clamp (2881 / 2 ^ 543) 0 0⟩
      = some (6334750532852489 / 2 ^ 584) ∧
    (6334750532852489 / 2 ^ 584 : ℚ) ≠ 2881 / 2 ^ 543 := by
  decide!

/-- C18, failing input: the rectangles `a = [0,10]×[0,10]` and
`b = [-1,11]×[4,6]` satisfy `a.xmin ≤ b.xmax`, `b.xmin ≤ a.xmax`,
`a.ymin ≤ b.ymax`, `b.ymin ≤ a.ymax` and share the point `(5,5)`, yet
`a.intersects(b)` returns false: no corner of `b` lies in `a`, neither contains
the other, and the two `cur_is_mid` cases need a vertical side of `b` inside
`a`. -/
theorem intersects_misses_crossing :
    Rect.intersects ⟨⟨0, 0⟩, ⟨10, 10⟩⟩ ⟨⟨-1, 4⟩, ⟨11, 6⟩⟩ = false ∧
    Rect.contains ⟨⟨0, 0⟩, ⟨10, 10⟩⟩ ⟨5, 5⟩ = true ∧
    Rect.contains ⟨⟨-1, 4⟩, ⟨11, 6⟩⟩ ⟨5, 5⟩ = true ∧
    Rect.xmin ⟨⟨0, 0⟩, ⟨10, 10⟩⟩ ≤ Rect.xmax ⟨⟨-1, 4⟩, ⟨11, 6⟩⟩ ∧
    Rect.xmin ⟨⟨-1, 4⟩, ⟨11, 6⟩⟩ ≤ Rect.xmax ⟨⟨0, 0⟩, ⟨10, 10⟩⟩ ∧
    Rect.ymin ⟨⟨0, 0⟩, ⟨10, 10⟩⟩ ≤ Rect.ymax ⟨⟨-1, 4⟩, ⟨11, 6⟩⟩ ∧
    Rect.ymin ⟨⟨-1, 4⟩, ⟨11, 6⟩⟩ ≤ Rect.ymax ⟨⟨0, 0⟩, ⟨10, 10⟩⟩ := by
  decide!

/-- C20: after every `put` on a tree reachable by `put` calls, the cached
begin pointer is the pointer reached from the root by `left` links only and
it points to a leaf, and the cached end pointer is the pointer reached from
the root by `right` links only and it points to a leaf. -/
theorem cached_boundary_leaves (p : Point) (ps : List Point) :
    ∃ s root b e, PointSet.putAll (p :: ps) = some s ∧ s.root = some root ∧
      s.begin_pointer = some b ∧ s.end_pointer = some e ∧
      (∀ step ∈ b, step = false) ∧ (∃ d reg, root.deref b = some (Node.leaf d reg)) ∧
      (∀ step ∈ e, step = true) ∧ (∃ d reg, root.deref e = some (Node.leaf d reg)) := by
  obtain ⟨s, hs, hcons, _, hroot, _⟩ := putAll_good (p :: ps)
  obtain ⟨root, hr⟩ := hroot (by simp)
  simp only [PointSet.Consistent, hr] at hcons
  exact ⟨s, root, descend_left root [], descend_right root [], hs, hr, hcons.2.1, hcons.2.2,
    mem_descend_left root, deref_descend_left root, mem_descend_right root,
    deref_descend_right root⟩


/-! ## Range search -/

theorem report_subtree_eq (t : Node) (result : List Point) :
    report_subtree t result = result ++ t.leaves := by
  induction t generalizing result with
  | leaf d reg => simp [report_subtree, Node.leaves]
  | inner d reg l r ihl ihr => simp [report_subtree, Node.leaves, ihl, ihr]

theorem contains_of_containsRect (rect reg : Rect) (p : Point)
    (h1 : rect.containsRect reg = true) (h2 : reg.contains p = true) :
    rect.contains p = true := by
  simp only [Rect.containsRect, Rect.contains, Bool.and_eq_true, decide_eq_true_eq] at h1 h2 ⊢
  obtain ⟨⟨⟨a1, a2⟩, a3⟩, a4⟩ := h1
  obtain ⟨⟨⟨b1, b2⟩, b3⟩, b4⟩ := h2
  exact ⟨⟨⟨a1.trans b1, b2.trans a2⟩, a3.trans b3⟩, b4.trans a4⟩

theorem search_range_child_sound (child : Node) (rect : Rect) (hreg : RegionExact child)
    (ih : ∀ result, ∀ p ∈ search_range child rect result,
      p ∈ result ∨ (p ∈ child.leaves ∧ rect.contains p = true))
    (result : List Point) :
    ∀ p ∈ search_range_child child rect result,
      p ∈ result ∨ (p ∈ child.leaves ∧ rect.contains p = true) := by
  intro p hp
  unfold search_range_child at hp
  split_ifs at hp with h1 h2
  · rw [report_subtree_eq] at hp
    rcases List.mem_append.mp hp with h | h
    · exact Or.inl h
    · exact Or.inr ⟨h, contains_of_containsRect rect _ p h1
        (region_contains_leaves child hreg p h)⟩
  · exact ih result p hp
  · exact Or.inl hp

theorem search_range_inner (d : Point) (reg : Rect) (l r : Node) (rect : Rect)
    (result : List Point) :
    search_range (Node.inner d reg l r) rect result
      = search_range_child r rect (search_range_child l rect result) := by
  simp only [search_range, search_range_child]

/-- Every point that the range search appends is held by a leaf of the
subtree and lies in the query rectangle. -/
theorem search_range_sound (t : Node) (rect : Rect) (hreg : RegionExact t)
    (result : List Point) :
    ∀ p ∈ search_range t rect result,
      p ∈ result ∨ (p ∈ t.leaves ∧ rect.contains p = true) := by
  induction t generalizing result with
  | leaf d reg =>
    intro p hp
    simp only [search_range] at hp
    split_ifs at hp with h
    · rcases List.mem_append.mp hp with h1 | h1
      · exact Or.inl h1
      · have : p = d := by simpa using h1
        subst this
        exact Or.inr ⟨by simp [Node.leaves], h⟩
    · exact Or.inl hp
  | inner d reg l r ihl ihr =>
    obtain ⟨_, _, hl, hr⟩ := hreg
    intro p hp
    rw [search_range_inner] at hp
    rcases search_range_child_sound r rect hr (fun res => ihr hr res) _ p hp with h | ⟨h1, h2⟩
    · rcases search_range_child_sound l rect hl (fun res => ihl hl res) _ p h with h | ⟨h1, h2⟩
      · exact Or.inl h
      · exact Or.inr ⟨by simp [Node.leaves, h1], h2⟩
    · exact Or.inr ⟨by simp [Node.leaves, h1], h2⟩

/-! ## The point order -/

/-- C22, failing input: on a default-constructed set, `contains(p)`,
`range(R)` and `nearest(q, k)` dereference the null root (`find`,
`search_range` and `nearest_impl` all start with `cur->left`), for every `p`,
`R`, `q` and `k`; none of them returns a value. -/
theorem empty_tree_queries_fault (p q : Point) (r : Rect) (k : Nat) :
    PointSet.empty_set.contains p = none ∧ PointSet.empty_set.range r = none ∧
      PointSet.empty_set.nearest_k q k = none := by
  simp [PointSet.contains, PointSet.range, PointSet.nearest_k, PointSet.nearest_heap,
    PointSet.empty_set]

/-- C23: for every range `p :: q :: rest` of `n ≥ 2` points and either depth
parity, the split index `median` computed on the sorted range satisfies
`1 ≤ median ≤ n - 1`, both halves are non-empty and strictly shorter than the
range, and `build_tree` returns for every recursion bound of at least `n`. -/
theorem build_tree_terminates (p q : Point) (rest : List Point) (depth : Bool) (extra : Nat) :
    ∃ median, median_index depth (sort depth (p :: q :: rest)) = some median ∧
      1 ≤ median ∧ median ≤ (p :: q :: rest).length - 1 ∧
      (sort depth (p :: q :: rest)).take median ≠ [] ∧
      ((sort depth (p :: q :: rest)).take median).length < (p :: q :: rest).length ∧
      (sort depth (p :: q :: rest)).drop median ≠ [] ∧
      ((sort depth (p :: q :: rest)).drop median).length < (p :: q :: rest).length ∧
      (build_tree ((p :: q :: rest).length + extra) (p :: q :: rest) depth).isSome = true := by
  have hlen : (sort depth (p :: q :: rest)).length = rest.length + 2 := by
    simpa using (sort_perm depth (p :: q :: rest)).length_eq
  have hsne : sort depth (p :: q :: rest) ≠ [] := by
    intro h; rw [h] at hlen; simp at hlen
  obtain ⟨mid, median, last, tail, _, h2, h3, h4, h5, _, _, _⟩ :=
    split_sorted depth _ hsne (sort_sorted depth (p :: q :: rest))
  obtain ⟨n, out, hb, _, _, _⟩ :=
    build_tree_spec ((p :: q :: rest).length + extra) (p :: q :: rest) depth (by simp)
      (by omega)
  rw [hlen] at h3 h4
  have hmed1 : 1 ≤ median := by omega
  have htake : ((sort depth (p :: q :: rest)).take median).length = median := by
    rw [List.length_take, hlen]; omega
  have hdrop : ((sort depth (p :: q :: rest)).drop median).length = rest.length + 2 - median := by
    rw [List.length_drop, hlen]
  refine ⟨median, h2, hmed1, by simp only [List.length_cons]; omega, ?_, ?_, ?_, ?_, ?_⟩
  · intro h; rw [h] at htake; simp at htake; omega
  · rw [htake]; simp only [List.length_cons]; omega
  · rw [h5]; simp
  · rw [hdrop]; simp only [List.length_cons]; omega
  · rw [hb]; rfl

/-- C24: for every non-empty tree built by `put` calls and every rectangle
`R`, every point of the sequence returned by `range(R)` is held by a leaf of
the tree and satisfies `R.contains`, the points collected by
`report_subtree` included. -/
theorem range_sound (p : Point) (ps : List Point) (r : Rect) :
    ∃ s res, PointSet.putAll (p :: ps) = some s ∧ s.range r = some res ∧
      ∀ x ∈ res, x ∈ s.leaves ∧ r.contains x = true := by
  obtain ⟨s, hs, _, hinv, hroot, _⟩ := putAll_good (p :: ps)
  obtain ⟨root, hr⟩ := hroot (by simp)
  simp only [PointSet.TreeInv, hr] at hinv
  refine ⟨s, search_range root r [], hs, by simp [PointSet.range, hr], ?_⟩
  intro x hx
  rcases search_range_sound root r hinv.1 [] x hx with h | h
  · simp at h
  · simpa [PointSet.leaves, hr] using h

/-- C25, failing input: `build_tree` on the range `(0,0), (1,1)` at depth
parity `true` returns a root whose routing key is `(1,1)`, the first element
of the right half, with leaves `(0,0)` and `(1,1)`; `find(root, (1,1), true)`
turns left because `1 < 1` is false and ends at the leaf holding `(0,0)`, and
after `constructor_impl` on this collection `contains((1,1))` is false. -/
theorem find_misses_bulk_point :
    (build_tree 2 [⟨0, 0⟩, ⟨1, 1⟩] true).map
        (fun t => (t.1.data, t.1.leaves, (t.1.deref (find t.1 [] ⟨1, 1⟩ true).1).map Node.data))
      = some (⟨1, 1⟩, [⟨0, 0⟩, ⟨1, 1⟩], some ⟨0, 0⟩) ∧
    (PointSet.constructor_impl PointSet.empty_set [⟨0, 0⟩, ⟨1, 1⟩]).map
        (fun s => s.contains ⟨1, 1⟩) = some (some false) := by
  decide!

end kdtree
